import Mathlib

/-!
Verification of the `refresh_plex` synchronizer (`src/refresh_plex.py`).

The development shallowly embeds the program:

* the filesystem trees that `Plex.sync` walks (`FSEntry`, `pass1`, `pass2`);
* the metrics record (`SyncMetric`, `LibMetrics`);
* the resolution cache and `Plex.find_items` (`CacheRecord`, `likeMatch`,
  `goCands`/`goPath`/`goAll`, `findItems`);
* the orchestration (`analyzeLibraries`, `updateServer`, `runModel`) with an
  explicit trace of remote-service interactions (`REvent`).

Machine integers do not occur (Python ints are unbounded); file sizes and
inode numbers are `Nat`.  Fallible operations are `Option`-valued.
-/

/-- Relative path, as the list of its components (`PurePath` relative_to). -/
abbrev RelPath := List String

/-- Mirrors the Python dataclass `SyncMetric` (lists of relative paths). -/
structure SyncMetric where
  dirs : List RelPath := []
  files : List RelPath := []
deriving Repr, DecidableEq

/-- Mirrors `SyncMetric.has_values`: true iff either list is non-empty. -/
def SyncMetric.hasValues (m : SyncMetric) : Bool :=
  !(m.dirs.isEmpty && m.files.isEmpty)

/-- Concatenation of two metric records (used to accumulate walk results). -/
def SyncMetric.app (a b : SyncMetric) : SyncMetric :=
  ⟨a.dirs ++ b.dirs, a.files ++ b.files⟩

/-- Mirrors the Python dataclass `LibMetrics`. -/
structure LibMetrics where
  added : SyncMetric := {}
  removed : SyncMetric := {}
  changed : SyncMetric := {}
deriving Repr, DecidableEq

/-- Pointwise concatenation of `LibMetrics`. -/
def LibMetrics.app (a b : LibMetrics) : LibMetrics :=
  ⟨a.added.app b.added, a.removed.app b.removed, a.changed.app b.changed⟩

/-- An empty metrics record: every added/removed/changed list is empty. -/
def LibMetrics.isEmpty (m : LibMetrics) : Bool :=
  !(m.added.hasValues || m.removed.hasValues || m.changed.hasValues)

/-- A remote media item: its rating key and the file paths of its media
parts (the flattening `[mp.file for m in item.media for mp in m.parts]`). -/
structure MediaItem where
  key : Nat
  parts : List String
deriving Repr, DecidableEq

/-- One row of the `media` table: `(lib TEXT, key INT, path TEXT)`. -/
structure CacheRecord where
  lib : String
  key : Nat
  path : String
deriving Repr, DecidableEq

/-- The remote Plex server and the persisted cache, as the model sees them:
`sections` is the library listing used by `refresh_cache`, `fetch` is
`library.fetchItem` (`none` models the `NotFound` exception), `cache` is the
current contents of the `media` table in `cache.db`. -/
structure PlexEnv where
  sections : List (String × List MediaItem)
  fetch : Nat → Option MediaItem
  cache : List CacheRecord

/-- SQLite `LIKE` compares ASCII letters case-insensitively. -/
def charLike (p c : Char) : Bool := p.toLower == c.toLower

/-- SQLite `LIKE` pattern matching over the characters of the pattern and the
subject: `%` matches any sequence, `_` any single character, other
characters match themselves (ASCII-case-insensitively). -/
def likeMatch : List Char → List Char → Bool
  | [], [] => true
  | [], _ :: _ => false
  | '%' :: ps, s =>
      likeMatch ps s ||
        (match s with
         | [] => false
         | _ :: s2 => likeMatch ('%' :: ps) s2)
  | '_' :: _, [] => false
  | '_' :: ps, _ :: s2 => likeMatch ps s2
  | _ :: _, [] => false
  | p :: ps, c :: s2 => charLike p c && likeMatch ps s2
termination_by p s => (s.length, p.length)

/-- `LIKE` on strings. -/
def likeMatchS (pat s : String) : Bool := likeMatch pat.data s.data

/-- The cursor rows of `SELECT * FROM media WHERE lib = ? AND path LIKE ?`
with the parameters `(lib_type, f"%{relative_path}")`; row order is the
insertion order of the table, modelled by the list order of the cache. -/
def lookupCache (cache : List CacheRecord) (lib rel : String) : List CacheRecord :=
  cache.filter fun r => r.lib == lib && likeMatchS ("%" ++ rel) r.path

/-- Lookup in an insertion-ordered association list (a Python dict). -/
def lookupAssoc {α : Type} (l : List (Nat × α)) (k : Nat) : Option α :=
  (l.find? fun e => e.1 == k).map fun e => e.2

/-- Mirrors `Plex.is_plex_media_valid`: some media part of the live item
equals the expected media path. -/
def isPlexMediaValid (item : MediaItem) (expected : String) : Bool :=
  item.parts.any fun p => p == expected

/-- The inner candidate loop of `Plex.find_items` for one changed path.
Arguments after `verify`: remaining candidate rows, `analyze_items`,
the keys passed to `fetchItem` so far (in call order), and `is_valid`.
Returns `none` for the `return None` aborts, together with the fetch
trace accumulated up to that point. -/
def goCands (env : PlexEnv) (verify : Bool) :
    List CacheRecord → List (Nat × MediaItem) → List Nat → Bool →
    Option (List (Nat × MediaItem) × Bool) × List Nat
  | [], items, trace, valid => (some (items, valid), trace)
  | r :: rs, items, trace, valid =>
    if (lookupAssoc items r.key).isSome then
      -- `if key in analyze_items: is_valid = True; continue`
      goCands env verify rs items trace true
    else
      match env.fetch r.key with
      | some item =>
        if verify && !isPlexMediaValid item r.path then
          (none, trace ++ [r.key])
        else
          goCands env verify rs (items ++ [(r.key, item)]) (trace ++ [r.key]) true
      | none =>
        -- `except (NotFound, AttributeError): if verify: return None`
        if verify then (none, trace ++ [r.key])
        else goCands env verify rs items (trace ++ [r.key]) valid

/-- Mirrors `missing_items.setdefault(lib_type, []).append(relative_path)`. -/
def appendMissing (missing : List (String × List String)) (lib rel : String) :
    List (String × List String) :=
  if missing.any fun e => e.1 == lib then
    missing.map fun e => if e.1 == lib then (e.1, e.2 ++ [rel]) else e
  else missing ++ [(lib, [rel])]

/-- The body of `Plex.find_items` for one changed relative path. -/
def goPath (env : PlexEnv) (cache : List CacheRecord) (verify : Bool) (lib rel : String)
    (items : List (Nat × MediaItem)) (missing : List (String × List String))
    (trace : List Nat) :
    Option (List (Nat × MediaItem) × List (String × List String)) × List Nat :=
  match goCands env verify (lookupCache cache lib rel) items trace false with
  | (none, tr) => (none, tr)
  | (some (items2, valid), tr) =>
    if valid then (some (items2, missing), tr)
    else if verify then (none, tr)
    else (some (items2, appendMissing missing lib rel), tr)

/-- The loop of `Plex.find_items` over the changed paths of one library. -/
def goPaths (env : PlexEnv) (cache : List CacheRecord) (verify : Bool) (lib : String) :
    List String → List (Nat × MediaItem) → List (String × List String) → List Nat →
    Option (List (Nat × MediaItem) × List (String × List String)) × List Nat
  | [], items, missing, trace => (some (items, missing), trace)
  | rel :: rels, items, missing, trace =>
    match goPath env cache verify lib rel items missing trace with
    | (none, tr) => (none, tr)
    | (some (i2, m2), tr) => goPaths env cache verify lib rels i2 m2 tr

/-- The outer loop of `Plex.find_items` over `changed_paths.items()`. -/
def goAll (env : PlexEnv) (cache : List CacheRecord) (verify : Bool) :
    List (String × List String) → List (Nat × MediaItem) → List (String × List String) →
    List Nat →
    Option (List (Nat × MediaItem) × List (String × List String)) × List Nat
  | [], items, missing, trace => (some (items, missing), trace)
  | (lib, rels) :: rest, items, missing, trace =>
    match goPaths env cache verify lib rels items missing trace with
    | (none, tr) => (none, tr)
    | (some (i2, m2), tr) => goAll env cache verify rest i2 m2 tr

/-- `Plex.find_items`, instrumented: the first component is the returned
value (`none` models `return None`), the second is the sequence of keys
passed to `library.fetchItem`, in call order. -/
def findItemsFull (env : PlexEnv) (cache : List CacheRecord) (verify : Bool)
    (changed : List (String × List String)) :
    Option (List (Nat × MediaItem) × List (String × List String)) × List Nat :=
  goAll env cache verify changed [] [] []

/-- `Plex.find_items` proper: `analyze_items` and `missing_items`, or the
`None` failure sentinel. -/
def findItems (env : PlexEnv) (cache : List CacheRecord) (verify : Bool)
    (changed : List (String × List String)) :
    Option (List (Nat × MediaItem) × List (String × List String)) :=
  (findItemsFull env cache verify changed).1

/-- A filesystem entry: a regular file (byte size and inode number, so that
hardlink identity is expressible) or a directory with an ordered list of
named children (the order in which `os.walk`/`os.scandir` reports them). -/
inductive FSEntry where
  | file (size inode : Nat)
  | dir (children : List (String × FSEntry))
deriving Repr

/-- Whether the entry is a directory. -/
def FSEntry.isDirB : FSEntry → Bool
  | .dir _ => true
  | .file _ _ => false

/-- Whether the entry is a regular file. -/
def FSEntry.isFileB : FSEntry → Bool
  | .file _ _ => true
  | .dir _ => false

/-- Mirrors `os.path.getsize`.  For directories the real call returns a
filesystem-dependent block size; the claims never compare a file against a
directory (the type-mismatch gap accepted by the spec), so any constant is
adequate here. -/
def entrySize : FSEntry → Nat
  | .file s _ => s
  | .dir _ => 0

/-- Inode of a file; directories are never hardlinked, value irrelevant. -/
def entryInode : FSEntry → Nat
  | .file _ i => i
  | .dir _ => 0

/-- Lookup of a directory child by name (first match, as on a real
filesystem where names are unique). -/
def lookupChild (ch : List (String × FSEntry)) (n : String) : Option FSEntry :=
  (ch.find? fun c => c.1 == n).map fun c => c.2

/-- Child names of a directory listing. -/
def namesOf (ch : List (String × FSEntry)) : List String := ch.map fun c => c.1

/-- Boolean duplicate-freedom of a name list. -/
def nodupNames : List String → Bool
  | [] => true
  | n :: ns => !ns.contains n && nodupNames ns

/-- Well-formedness of a tree: sibling names are unique at every level.
Every tree produced by a real filesystem walk satisfies this. -/
def wfFS : FSEntry → Bool
  | .file _ _ => true
  | .dir ch => nodupNames (namesOf ch) && ch.attach.all fun c => wfFS c.1.2
decreasing_by
  have h2 := List.sizeOf_lt_of_mem c.2
  obtain ⟨⟨n, e⟩, hm⟩ := c
  simp_wf
  simp only [Prod.mk.sizeOf_spec] at h2
  omega

/-- CPython semantics of the pass-1 loop

    for dir in dirs:
        if <removed>:
            dirs.remove(dir)

List iteration advances an index; `remove` shifts the remaining elements
down, so the element following a removed one is skipped (never tested).
Returns the list as left in `dirs` (what the walk will descend into) and
the removed elements in encounter order. -/
def walkRemoveIter {α : Type} (p : α → Bool) : List α → List α × List α
  | [] => ([], [])
  | [x] => if p x then ([], [x]) else ([x], [])
  | x :: y :: rest =>
    if p x then
      let kr := walkRemoveIter p rest
      (y :: kr.1, x :: kr.2)
    else
      let kr := walkRemoveIter p (y :: rest)
      (x :: kr.1, kr.2)

/-- Elements left in the list by the buggy removal loop were in the list. -/
theorem walkRemoveIter_kept_mem {α : Type} (p : α → Bool) (l : List α) :
    ∀ (x : α), x ∈ (walkRemoveIter p l).1 → x ∈ l := by
  induction l using walkRemoveIter.induct p with
  | case1 => simp [walkRemoveIter]
  | case2 a hp => simp [walkRemoveIter, hp]
  | case3 a hp => intro x h; simp [walkRemoveIter, hp] at h; simp [h]
  | case4 a b rest hp ih =>
    intro x h
    simp [walkRemoveIter, hp] at h
    rcases h with h | h
    · simp [h]
    · have := ih x h
      simp [this]
  | case5 a b rest hp ih =>
    intro x h
    simp [walkRemoveIter, hp] at h
    rcases h with h | h
    · simp [h]
    · have := ih x h
      simp at this
      rcases this with h2 | h2 <;> simp [h2]

/-- Removed elements of the buggy removal loop satisfy the predicate. -/
theorem walkRemoveIter_removed_prop {α : Type} (p : α → Bool) (l : List α) :
    ∀ (x : α), x ∈ (walkRemoveIter p l).2 → p x = true
 := by
  induction l using walkRemoveIter.induct p with
  | case1 => simp [walkRemoveIter]
  | case2 a hp => intro x h; simp [walkRemoveIter, hp] at h; simp [h, hp]
  | case3 a hp => simp [walkRemoveIter, hp]
  | case4 a b rest hp ih =>
    intro x h
    simp [walkRemoveIter, hp] at h
    rcases h with h | h
    · simp [h, hp]
    · exact ih x h
  | case5 a b rest hp ih =>
    intro x h
    simp [walkRemoveIter, hp] at h
    exact ih x h

/-- Pass 1 of `Plex.sync`: the walk of the destination tree.  `pre` is the
path of the current directory relative to the library destination root,
`srcOpt` the entry at the corresponding source path (`none` when the source
path does not exist).  For each child directory, `check_removed_media`
deletes the subtree (unless `dry`) and records it when its source path is
missing — with the CPython skip of `walkRemoveIter`; the walk then descends
only into the directories left in `dirs`.  For each child file,
`check_removed_media` deletes and records it when its source path is
missing, otherwise `check_changed_media` re-links and records it when the
byte sizes differ.  `os.walk` of a non-directory yields nothing.  Returns
the destination tree after the walk, the `removed` metric and the `changed`
metric.  Size checks read the `os.scandir` snapshot: no earlier operation
of the walk can have touched the entry (sibling names are distinct on a
real filesystem and removed subtrees are not descended into). -/
def pass1 (dry : Bool) (pre : RelPath) (srcOpt : Option FSEntry) :
    FSEntry → FSEntry × SyncMetric × SyncMetric
  | .file s i => (.file s i, {}, {})
  | .dir ch =>
    let srcLook : String → Option FSEntry := fun n =>
      match srcOpt with
      | some (.dir sc) => lookupChild sc n
      | _ => none
    let dirE := ch.filter fun c => c.2.isDirB
    let fileE := ch.filter fun c => c.2.isFileB
    let kr := walkRemoveIter (fun c => (srcLook c.1).isNone) dirE
    let remF := fileE.filter fun c => (srcLook c.1).isNone
    let chgF := fileE.filter fun c =>
      match srcLook c.1 with
      | some se => entrySize se != entrySize c.2
      | none => false
    let results := kr.1.attach.map fun c =>
      (c.1.1, pass1 dry (pre ++ [c.1.1]) (srcLook c.1.1) c.1.2)
    let removedLevel : SyncMetric :=
      ⟨kr.2.map fun c => pre ++ [c.1], remF.map fun c => pre ++ [c.1]⟩
    let changedLevel : SyncMetric := ⟨[], chgF.map fun c => pre ++ [c.1]⟩
    let removedM := results.foldl (fun m r => m.app r.2.2.1) removedLevel
    let changedM := results.foldl (fun m r => m.app r.2.2.2) changedLevel
    let newCh := ch.filterMap fun c =>
      if c.2.isDirB then
        if !dry && kr.2.any (fun d => d.1 == c.1) then none
        else
          match results.find? fun r => r.1 == c.1 with
          | some r => some (c.1, r.2.1)
          | none => some c
      else
        match srcLook c.1 with
        | none => if dry then some c else none
        | some se =>
          if entrySize se != entrySize c.2 then
            (if dry then some c
             else some (c.1, FSEntry.file (entrySize se) (entryInode se)))
          else some c
    (.dir newCh, removedM, changedM)
termination_by e => sizeOf e
decreasing_by
  have h1 := walkRemoveIter_kept_mem _ _ _ c.2
  have h2 := List.mem_of_mem_filter h1
  have h3 := List.sizeOf_lt_of_mem h2
  obtain ⟨⟨n, e⟩, hm⟩ := c
  simp_wf
  simp only [Prod.mk.sizeOf_spec] at h3
  omega

/-- Pass 2 of `Plex.sync`: the walk of the source tree.  For each child of
the current source directory, `check_added_media` creates the destination
entry (an empty directory via `os.mkdir`, or a hardlink of the source file
via `os.link`) when the destination path does not exist, and records it.
The walk then descends into every source child directory; a directory the
pass just created is seen there as an empty directory (or, under dry-run,
is still absent).  Existence checks read the state of the destination as
the walk reaches them: within one level each name is tested exactly once
and only then created, so the tests read the pre-level state.  -/
def pass2 (dry : Bool) (pre : RelPath) : FSEntry → Option FSEntry → Option FSEntry × SyncMetric
  | .file _ _, dest => (dest, {})
  | .dir sch, dest =>
    let destCh : Option (List (String × FSEntry)) :=
      match dest with
      | some (.dir dc) => some dc
      | _ => none
    let look : String → Option FSEntry := fun n =>
      match destCh with
      | some dc => lookupChild dc n
      | none => none
    let dirE := sch.filter fun c => c.2.isDirB
    let fileE := sch.filter fun c => c.2.isFileB
    let newD := dirE.filter fun c => (look c.1).isNone
    let newF := fileE.filter fun c => (look c.1).isNone
    let results := dirE.attach.map fun c =>
      let childDest : Option FSEntry :=
        match look c.1.1 with
        | some e => some e
        | none => if dry then none else some (.dir [])
      (c.1.1, pass2 dry (pre ++ [c.1.1]) c.1.2 childDest)
    let addedLevel : SyncMetric :=
      ⟨newD.map fun c => pre ++ [c.1], newF.map fun c => pre ++ [c.1]⟩
    let addedM := results.foldl (fun m r => m.app r.2.2) addedLevel
    let newDest : Option FSEntry :=
      match dest with
      | some (.dir dc) =>
        let base :=
          if dry then dc
          else dc ++ (newD.map fun c => (c.1, FSEntry.dir []))
                  ++ (newF.map fun c => (c.1, FSEntry.file (entrySize c.2) (entryInode c.2)))
        some (.dir (base.map fun c =>
          if c.2.isDirB then
            match results.find? fun r => r.1 == c.1 with
            | some r => (c.1, r.2.1.getD c.2)
            | none => c
          else c))
      | other => other
    (newDest, addedM)
termination_by e _ => sizeOf e
decreasing_by
  have h2 := List.mem_of_mem_filter c.2
  have h3 := List.sizeOf_lt_of_mem h2
  obtain ⟨⟨n, e⟩, hm⟩ := c
  simp_wf
  simp only [Prod.mk.sizeOf_spec] at h3
  omega

/-- Mirrors the dataclass `PlexLibrary` (with the trees in place of the
configured root paths). -/
structure PlexLibrary where
  type : String
  src : FSEntry
  dest : FSEntry
deriving Repr

/-- One iteration of the `for lib in self.config.plex_libs` loop of
`Plex.sync`: both walks over one library mapping.  Returns the library
with its destination tree as left on disk, and its metric contribution. -/
def syncLib (dry : Bool) (lib : PlexLibrary) : PlexLibrary × LibMetrics :=
  let r1 := pass1 dry [] (some lib.src) lib.dest
  let r2 := pass2 dry [] lib.src (some r1.1)
  (⟨lib.type, lib.src, r2.1.getD r1.1⟩, ⟨r2.2, r1.2.1, r1.2.2⟩)

/-- Mirrors `metrics.setdefault(lib.type, LibMetrics())` followed by
in-place appends: merge one library's metrics into the per-type map. -/
def mergeMetrics (acc : List (String × LibMetrics)) (ty : String) (m : LibMetrics) :
    List (String × LibMetrics) :=
  if acc.any fun e => e.1 == ty then
    acc.map fun e => if e.1 == ty then (e.1, e.2.app m) else e
  else acc ++ [(ty, m)]

/-- `Plex.sync`: `none` models the early `return None` when the library
list is empty; otherwise the updated destination trees (in mapping order)
and the per-type metrics map (in insertion order). -/
def sync (dry : Bool) (libs : List PlexLibrary) :
    Option (List PlexLibrary × List (String × LibMetrics)) :=
  match libs with
  | [] => none
  | _ =>
    some (libs.foldl (fun acc lib =>
      let r := syncLib dry lib
      (acc.1 ++ [r.1], mergeMetrics acc.2 lib.type r.2)) ([], []))

/-- Remote-service interactions, for the frame/effect claims.
`listSections` is the constructor's `self.plex.library.sections()` listing;
`fetchItem` the `library.fetchItem(key)` read; `rebuildCache` one run of
`Plex.refresh_cache` (a remote enumeration plus a full rewrite of the
`media` table); `refreshLibrary` the `library.update()` call;
`analyzeItem` one `video.analyze()` call. -/
inductive REvent where
  | listSections
  | fetchItem (key : Nat)
  | rebuildCache
  | refreshLibrary
  | analyzeItem (key : Nat)
deriving Repr, DecidableEq

/-- Mirrors the configurable switches of `Config` that the core logic
reads (the behavioral flags of the CLI). -/
structure Config where
  dryRun : Bool
  skipRefresh : Bool
  skipAnalyze : Bool
  refreshCache : Bool
  plexLibs : List PlexLibrary

/-- The rows inserted by `Plex.refresh_cache`: for each library section of a
supported type, for each item, one row per media-part file path. -/
def rebuildRecords (env : PlexEnv) : List CacheRecord :=
  (env.sections.filter fun s => s.1 == "movie" || s.1 == "show").flatMap fun s =>
    s.2.flatMap fun it => it.parts.map fun p => ⟨s.1, it.key, p⟩

/-- `str(PurePath)` of a relative path handed to `find_items`. -/
def joinRel (p : RelPath) : String := String.intercalate "/" p

/-- Result of `Plex.analyze_libraries`, instrumented: the remote events it
performs, and the `verify` flag of each `find_items` invocation in order. -/
structure AnalyzeOut where
  events : List REvent
  resolveCalls : List Bool
deriving Repr, DecidableEq

/-- The `video.analyze()` loop: suppressed (log only) under dry-run. -/
def analyzeEvents (cfg : Config) (items : List (Nat × MediaItem)) : List REvent :=
  if cfg.dryRun then [] else items.map fun i => REvent.analyzeItem i.1

/-- `Plex.analyze_libraries`: resolve the changed paths through the cache
with `verify = not refresh_cache`; on the `None` sentinel, rebuild the
cache and retry with `verify=False`; then trigger analyze for every
resolved item (unless dry-run) and log the unresolved paths.  `cache` is
the current contents of the `media` table when the method starts. -/
def analyzeLibraries (env : PlexEnv) (cfg : Config) (cache : List CacheRecord)
    (changedPaths : List (String × List String)) : AnalyzeOut :=
  if cfg.skipAnalyze then ⟨[], []⟩
  else if changedPaths.isEmpty then ⟨[], []⟩
  else
    let v1 := !cfg.refreshCache
    let r1 := findItemsFull env cache v1 changedPaths
    match r1.1 with
    | none =>
      let r2 := findItemsFull env (rebuildRecords env) false changedPaths
      let res := r2.1.getD ([], [])
      ⟨r1.2.map REvent.fetchItem ++ [REvent.rebuildCache] ++ r2.2.map REvent.fetchItem
        ++ analyzeEvents cfg res.1, [v1, false]⟩
    | some res =>
      ⟨r1.2.map REvent.fetchItem ++ analyzeEvents cfg res.1, [v1]⟩

/-- `Plex.refresh_libraries`: skipped with a warning, suppressed under
dry-run, otherwise one `library.update()` call. -/
def refreshLibrariesEvents (cfg : Config) : List REvent :=
  if cfg.skipRefresh then []
  else if cfg.dryRun then []
  else [REvent.refreshLibrary]

/-- `Plex.update_server`: nothing for a `None`/empty metrics map; analyze
when some kind has changed values (handing over every kind's changed-file
list); refresh when some kind has added or removed values. -/
def updateServer (env : PlexEnv) (cfg : Config) (cache : List CacheRecord)
    (metrics : Option (List (String × LibMetrics))) : AnalyzeOut :=
  match metrics with
  | none => ⟨[], []⟩
  | some m =>
    if m.isEmpty then ⟨[], []⟩
    else
      let aOut :=
        if m.any fun e => e.2.changed.hasValues then
          analyzeLibraries env cfg cache
            (m.map fun e => (e.1, e.2.changed.files.map joinRel))
        else ⟨[], []⟩
      let rEv :=
        if m.any fun e => e.2.added.hasValues || e.2.removed.hasValues then
          refreshLibrariesEvents cfg
        else []
      ⟨aOut.events ++ rEv, aOut.resolveCalls⟩

/-- The `run` driver after configuration parsing: construct `Plex` (whose
constructor connects and lists the library sections), run `sync`, rebuild
the cache when `--refresh-cache` was given, then `update_server`.  Returns
the remote-event trace and the `sync` result. -/
def runModel (env : PlexEnv) (cfg : Config) :
    List REvent × Option (List PlexLibrary × List (String × LibMetrics)) :=
  let res := sync cfg.dryRun cfg.plexLibs
  let cacheEv := if cfg.refreshCache then [REvent.rebuildCache] else []
  let cacheNow := if cfg.refreshCache then rebuildRecords env else env.cache
  let uOut := updateServer env cfg cacheNow (res.map fun r => r.2)
  ([REvent.listSections] ++ cacheEv ++ uOut.events, res)

/-- All relative paths of the entries of a tree (directories and files). -/
def pathsOf : FSEntry → List RelPath
  | .file _ _ => []
  | .dir ch => ch.attach.flatMap fun c => [c.1.1] :: (pathsOf c.1.2).map fun p => c.1.1 :: p
termination_by e => sizeOf e
decreasing_by
  have h3 := List.sizeOf_lt_of_mem c.2
  obtain ⟨⟨n, e⟩, hm⟩ := c
  simp_wf
  simp only [Prod.mk.sizeOf_spec] at h3
  omega

/-- The file entry (size, inode) at a relative path, if any. -/
def fileInfoAt : FSEntry → RelPath → Option (Nat × Nat)
  | .file s i, [] => some (s, i)
  | .file _ _, _ :: _ => none
  | .dir _, [] => none
  | .dir ch, n :: rest =>
    match lookupChild ch n with
    | some e => fileInfoAt e rest
    | none => none
termination_by _ p => p.length

/-- The tree `pass2` builds when the destination starts empty: the same
tree with, at every level, the subdirectories first (the `dirs` loop of
the walk runs before the `files` loop) and files hardlinked unchanged. -/
def mirrorFS : FSEntry → FSEntry
  | .file s i => .file s i
  | .dir ch =>
    .dir (((ch.filter fun c => c.2.isDirB).attach.map fun c => (c.1.1, mirrorFS c.1.2)) ++
          (ch.filter fun c => c.2.isFileB))
termination_by e => sizeOf e
decreasing_by
  have h2 := List.mem_of_mem_filter c.2
  have h3 := List.sizeOf_lt_of_mem h2
  obtain ⟨⟨n, e⟩, hm⟩ := c
  simp_wf
  simp only [Prod.mk.sizeOf_spec] at h3
  omega

/-- Invariant of the `find_items` fetch trace in permissive mode: every
key whose fetch succeeds is fetched at most once, and once fetched it is
present in `analyze_items`. -/
def TraceInv (env : PlexEnv) (items : List (Nat × MediaItem)) (trace : List Nat) : Prop :=
  ∀ k, (env.fetch k).isSome = true →
    (k ∈ trace → (lookupAssoc items k).isSome = true) ∧ trace.count k ≤ 1

/-- Invariant of the `find_items` fetch trace in strict mode: no key is
fetched twice, and every fetched key is present in `analyze_items`. -/
def StrictInv (items : List (Nat × MediaItem)) (trace : List Nat) : Prop :=
  trace.Nodup ∧ ∀ k ∈ trace, (lookupAssoc items k).isSome = true

/-! ## Helper lemmas -/

theorem joinRel_single (s : String) : joinRel [s] = s := rfl

theorem lookupAssoc_append_left {α : Type} (l1 l2 : List (Nat × α)) (k : Nat)
    (h : (lookupAssoc l1 k).isSome = true) :
    lookupAssoc (l1 ++ l2) k = lookupAssoc l1 k := by
  unfold lookupAssoc at *
  rw [List.find?_append]
  rcases hf : l1.find? fun e => e.1 == k with _ | v
  · rw [hf] at h; simp at h
  · simp [Option.or, hf]

theorem lookupAssoc_append_isSome {α : Type} (l1 l2 : List (Nat × α)) (k : Nat)
    (h : (lookupAssoc l1 k).isSome = true) :
    (lookupAssoc (l1 ++ l2) k).isSome = true := by
  rw [lookupAssoc_append_left l1 l2 k h]; exact h

theorem lookupAssoc_append_self {α : Type} (l : List (Nat × α)) (k : Nat) (v : α) :
    (lookupAssoc (l ++ [(k, v)]) k).isSome = true := by
  unfold lookupAssoc
  rw [List.find?_append]
  rcases hf : l.find? fun e => e.1 == k with _ | w <;> simp [Option.or, hf, List.find?]

/-- In permissive mode (`verify=False`) the candidate loop never aborts. -/
theorem goCands_permissive_isSome (env : PlexEnv) (rs : List CacheRecord) :
    ∀ items trace valid, ((goCands env false rs items trace valid).1).isSome = true := by
  induction rs with
  | nil => intro items trace valid; simp [goCands]
  | cons r rs ih =>
    intro items trace valid
    by_cases hk : (lookupAssoc items r.key).isSome = true
    · simp only [goCands, hk, if_true]
      exact ih items trace true
    · rcases hf : env.fetch r.key with _ | item
    
      · simp only [goCands, hk, hf]
        simp only [Bool.false_eq_true, if_false]
        exact ih items (trace ++ [r.key]) valid
      · simp only [goCands, hk, hf]
        simp only [Bool.false_and, Bool.false_eq_true, if_false]
        exact ih (items ++ [(r.key, item)]) (trace ++ [r.key]) true

/-- In permissive mode the per-path body never aborts. -/
theorem goPath_permissive_isSome (env : PlexEnv) (cache : List CacheRecord)
    (lib rel : String) (items : List (Nat × MediaItem))
    (missing : List (String × List String)) (trace : List Nat) :
    ((goPath env cache false lib rel items missing trace).1).isSome = true := by
  unfold goPath
  have h := goCands_permissive_isSome env (lookupCache cache lib rel) items trace false
  rcases hg : goCands env false (lookupCache cache lib rel) items trace false with ⟨o, tr⟩
  rw [hg] at h
  rcases o with _ | ⟨items2, valid⟩
  · simp at h
  · by_cases hv : valid = true <;> simp [hv]

/-- In permissive mode the per-library loop never aborts. -/
theorem goPaths_permissive_isSome (env : PlexEnv) (cache : List CacheRecord)
    (lib : String) (rels : List String) :
    ∀ items missing trace,
      ((goPaths env cache false lib rels items missing trace).1).isSome = true := by
  induction rels with
  | nil => intro items missing trace; simp [goPaths]
  | cons rel rels ih =>
    intro items missing trace
    have h := goPath_permissive_isSome env cache lib rel items missing trace
    rcases hg : goPath env cache false lib rel items missing trace with ⟨o, tr⟩
    rw [hg] at h
    rcases o with _ | ⟨i2, m2⟩
    · simp at h
    · simp only [goPaths, hg]
      exact ih i2 m2 tr

/-- In permissive mode the outer loop never aborts. -/
theorem goAll_permissive_isSome (env : PlexEnv) (cache : List CacheRecord)
    (changed : List (String × List String)) :
    ∀ items missing trace,
      ((goAll env cache false changed items missing trace).1).isSome = true := by
  induction changed with
  | nil => intro items missing trace; simp [goAll]
  | cons e rest ih =>
    intro items missing trace
    rcases e with ⟨lib, rels⟩
    have h := goPaths_permissive_isSome env cache lib rels items missing trace
    rcases hg : goPaths env cache false lib rels items missing trace with ⟨o, tr⟩
    rw [hg] at h
    rcases o with _ | ⟨i2, m2⟩
    · simp at h
    · simp only [goAll, hg]
      exact ih i2 m2 tr

/-- The empty resolution state satisfies the permissive trace invariant. -/
theorem traceInv_nil (env : PlexEnv) : TraceInv env [] [] := by
  intro k hk; constructor
  · intro hmem; simp at hmem
  · simp

/-- The candidate loop preserves the permissive trace invariant. -/
theorem goCands_traceInv (env : PlexEnv) (rs : List CacheRecord) :
    ∀ items trace valid, TraceInv env items trace →
      ∀ res tr, goCands env false rs items trace valid = (some res, tr) →
        TraceInv env res.1 tr := by
  induction rs with
  | nil =>
    intro items trace valid hinv res tr heq
    simp only [goCands, Prod.mk.injEq, Option.some.injEq] at heq
    rw [← heq.1, ← heq.2]
    exact hinv
  | cons r rs ih =>
    intro items trace valid hinv res tr heq
    by_cases hk : (lookupAssoc items r.key).isSome = true
    · simp only [goCands, hk, if_true] at heq
      exact ih items trace true hinv res tr heq
    · rcases hf : env.fetch r.key with _ | item
      · simp only [goCands, hk, hf, Bool.false_eq_true, if_false] at heq
        refine ih items (trace ++ [r.key]) valid ?_ res tr heq
        intro k hks
        have hne : k ≠ r.key := by
          intro he; rw [he, hf] at hks; simp at hks
        obtain ⟨hm, hc⟩ := hinv k hks
        constructor
        · intro hmem
          rcases List.mem_append.mp hmem with h | h
          · exact hm h
          · simp at h; exact absurd h hne
        · rw [List.count_append]
          simp [List.count_singleton, hne]
          omega
      · simp only [goCands, hk, hf, Bool.false_and, Bool.false_eq_true, if_false] at heq
        refine ih (items ++ [(r.key, item)]) (trace ++ [r.key]) true ?_ res tr heq
        intro k hks
        obtain ⟨hm, hc⟩ := hinv k hks
        by_cases hne : k = r.key
        · subst hne
          constructor
          · intro _
            exact lookupAssoc_append_self items r.key item
          · rw [List.count_append]
            have h0 : trace.count r.key = 0 := by
              rw [List.count_eq_zero]
              intro hmem
              exact hk (hm hmem)
            simp [h0, List.count_singleton]
        · constructor
          · intro hmem
            rcases List.mem_append.mp hmem with h | h
            · exact lookupAssoc_append_isSome _ _ _ (hm h)
            · simp at h; exact absurd h hne
          · rw [List.count_append]
            simp [List.count_singleton, hne]
            omega

/-- The per-path body preserves the permissive trace invariant. -/
theorem goPath_traceInv (env : PlexEnv) (cache : List CacheRecord) (lib rel : String)
    (items : List (Nat × MediaItem)) (missing : List (String × List String))
    (trace : List Nat) (hinv : TraceInv env items trace) :
    ∀ res tr, goPath env cache false lib rel items missing trace = (some res, tr) →
      TraceInv env res.1 tr := by
  intro res tr heq
  unfold goPath at heq
  rcases hg : goCands env false (lookupCache cache lib rel) items trace false with ⟨o, tr2⟩
  rw [hg] at heq
  rcases o with _ | ⟨items2, valid⟩
  · simp at heq
  · have h2 := goCands_traceInv env (lookupCache cache lib rel) items trace false hinv
      (items2, valid) tr2 hg
    by_cases hv : valid = true <;> simp [hv] at heq <;>
      rw [← heq.1, ← heq.2] <;> exact h2

/-- The per-library loop preserves the permissive trace invariant. -/
theorem goPaths_traceInv (env : PlexEnv) (cache : List CacheRecord) (lib : String)
    (rels : List String) :
    ∀ items missing trace, TraceInv env items trace →
      ∀ res tr, goPaths env cache false lib rels items missing trace = (some res, tr) →
        TraceInv env res.1 tr := by
  induction rels with
  | nil =>
    intro items missing trace hinv res tr heq
    simp only [goPaths, Prod.mk.injEq, Option.some.injEq] at heq
    rw [← heq.1, ← heq.2]
    exact hinv
  | cons rel rels ih =>
    intro items missing trace hinv res tr heq
    simp only [goPaths] at heq
    rcases hg : goPath env cache false lib rel items missing trace with ⟨o, tr2⟩
    rw [hg] at heq
    rcases o with _ | ⟨i2, m2⟩
    · simp at heq
    · exact ih i2 m2 tr2 (goPath_traceInv env cache lib rel items missing trace hinv
        (i2, m2) tr2 hg) res tr heq

/-- The outer loop preserves the permissive trace invariant. -/
theorem goAll_traceInv (env : PlexEnv) (cache : List CacheRecord)
    (changed : List (String × List String)) :
    ∀ items missing trace, TraceInv env items trace →
      ∀ res tr, goAll env cache false changed items missing trace = (some res, tr) →
        TraceInv env res.1 tr := by
  induction changed with
  | nil =>
    intro items missing trace hinv res tr heq
    simp only [goAll, Prod.mk.injEq, Option.some.injEq] at heq
    rw [← heq.1, ← heq.2]
    exact hinv
  | cons e rest ih =>
    intro items missing trace hinv res tr heq
    rcases e with ⟨lib, rels⟩
    simp only [goAll] at heq
    rcases hg : goPaths env cache false lib rels items missing trace with ⟨o, tr2⟩
    rw [hg] at heq
    rcases o with _ | ⟨i2, m2⟩
    · simp at heq
    · exact ih i2 m2 tr2 (goPaths_traceInv env cache lib rels items missing trace hinv
        (i2, m2) tr2 hg) res tr heq

/-- The candidate loop in strict mode: the fetch trace stays duplicate-free
(also on abort), and on success the strict invariant is preserved. -/
theorem goCands_strictInv (env : PlexEnv) (rs : List CacheRecord) :
    ∀ items trace valid, StrictInv items trace →
      ((goCands env true rs items trace valid).2).Nodup ∧
      (∀ res tr, goCands env true rs items trace valid = (some res, tr) →
        StrictInv res.1 tr) := by
  induction rs with
  | nil =>
    intro items trace valid hinv
    refine ⟨hinv.1, ?_⟩
    intro res tr heq
    simp only [goCands, Prod.mk.injEq, Option.some.injEq] at heq
    rw [← heq.1, ← heq.2]
    exact hinv
  | cons r rs ih =>
    intro items trace valid hinv
    by_cases hk : (lookupAssoc items r.key).isSome = true
    · simp only [goCands, hk, if_true]
      exact ih items trace true hinv
    · have hnotmem : r.key ∉ trace := fun hmem => hk (hinv.2 r.key hmem)
      have hnodup : (trace ++ [r.key]).Nodup := by
        simp [List.nodup_append, hinv.1, hnotmem]
      rcases hf : env.fetch r.key with _ | item
      · simp only [goCands, hk, hf, if_true]
        refine ⟨hnodup, ?_⟩
        intro res tr heq
        simp at heq
      · by_cases hv : isPlexMediaValid item r.path
        · have hinv2 : StrictInv (items ++ [(r.key, item)]) (trace ++ [r.key]) := by
            refine ⟨hnodup, ?_⟩
            intro k hmem
            rcases List.mem_append.mp hmem with h | h
            · exact lookupAssoc_append_isSome _ _ _ (hinv.2 k h)
            · simp at h
              rw [h]
              exact lookupAssoc_append_self items r.key item
          simp only [goCands, hk, hf, hv, Bool.not_true, Bool.and_false,
            Bool.false_eq_true, if_false]
          exact ih (items ++ [(r.key, item)]) (trace ++ [r.key]) true hinv2
        · simp only [goCands, hk, hf]
          have hvb : (true && !isPlexMediaValid item r.path) = true := by
            simp [hv]
          rw [hvb]
          simp only [if_true]
          refine ⟨hnodup, ?_⟩
          intro res tr heq
          simp at heq

/-- The per-path body in strict mode: duplicate-free trace, preserved
invariant on success, and the `missing_items` map untouched on success
(strict mode has no unresolved-path branch). -/
theorem goPath_strictInv (env : PlexEnv) (cache : List CacheRecord) (lib rel : String)
    (items : List (Nat × MediaItem)) (missing : List (String × List String))
    (trace : List Nat) (hinv : StrictInv items trace) :
    ((goPath env cache true lib rel items missing trace).2).Nodup ∧
    (∀ res tr, goPath env cache true lib rel items missing trace = (some res, tr) →
      StrictInv res.1 tr ∧ res.2 = missing) := by
  have h := goCands_strictInv env (lookupCache cache lib rel) items trace false hinv
  rcases hg : goCands env true (lookupCache cache lib rel) items trace false with ⟨o, tr2⟩
  rw [hg] at h
  rcases o with _ | ⟨items2, valid⟩
  · refine ⟨?_, ?_⟩
    · simp only [goPath, hg]
      exact h.1
    · intro res tr heq
      simp only [goPath, hg] at heq
      simp at heq
  · have hinv2 : StrictInv items2 tr2 := h.2 (items2, valid) tr2 rfl
    by_cases hv : valid = true
    · refine ⟨?_, ?_⟩
      · simp only [goPath, hg]
        simp only [hv, if_true]
        exact h.1
      · intro res tr heq
        simp only [goPath, hg] at heq
        simp [hv] at heq
        rw [← heq.1, ← heq.2]
        exact ⟨hinv2, rfl⟩
    · refine ⟨?_, ?_⟩
      · simp only [goPath, hg]
        simp only [hv, if_false, if_true]
        exact h.1
      · intro res tr heq
        simp only [goPath, hg] at heq
        simp [hv] at heq

/-- The per-library loop in strict mode. -/
theorem goPaths_strictInv (env : PlexEnv) (cache : List CacheRecord) (lib : String)
    (rels : List String) :
    ∀ items missing trace, StrictInv items trace →
      ((goPaths env cache true lib rels items missing trace).2).Nodup ∧
      (∀ res tr, goPaths env cache true lib rels items missing trace = (some res, tr) →
        StrictInv res.1 tr ∧ res.2 = missing) := by
  induction rels with
  | nil =>
    intro items missing trace hinv
    refine ⟨hinv.1, ?_⟩
    intro res tr heq
    simp only [goPaths, Prod.mk.injEq, Option.some.injEq] at heq
    rw [← heq.1, ← heq.2]
    exact ⟨hinv, rfl⟩
  | cons rel rels ih =>
    intro items missing trace hinv
    have h1 := goPath_strictInv env cache lib rel items missing trace hinv
    rcases hg : goPath env cache true lib rel items missing trace with ⟨o, tr2⟩
    rw [hg] at h1
    rcases o with _ | ⟨i2, m2⟩
    · refine ⟨?_, ?_⟩
      · simp only [goPaths, hg]
        exact h1.1
      · intro res tr heq
        simp only [goPaths, hg] at heq
        simp at heq
    · obtain ⟨hinv2, hm2⟩ := h1.2 (i2, m2) tr2 rfl
      have h2 := ih i2 m2 tr2 hinv2
      refine ⟨?_, ?_⟩
      · simp only [goPaths, hg]
        exact h2.1
      · intro res tr heq
        simp only [goPaths, hg] at heq
        obtain ⟨hinv3, hm3⟩ := h2.2 res tr heq
        exact ⟨hinv3, by rw [hm3]; exact hm2⟩

/-- The outer loop in strict mode. -/
theorem goAll_strictInv (env : PlexEnv) (cache : List CacheRecord)
    (changed : List (String × List String)) :
    ∀ items missing trace, StrictInv items trace →
      ((goAll env cache true changed items missing trace).2).Nodup ∧
      (∀ res tr, goAll env cache true changed items missing trace = (some res, tr) →
        StrictInv res.1 tr ∧ res.2 = missing) := by
  induction changed with
  | nil =>
    intro items missing trace hinv
    refine ⟨hinv.1, ?_⟩
    intro res tr heq
    simp only [goAll, Prod.mk.injEq, Option.some.injEq] at heq
    rw [← heq.1, ← heq.2]
    exact ⟨hinv, rfl⟩
  | cons e rest ih =>
    intro items missing trace hinv
    rcases e with ⟨lib, rels⟩
    have h1 := goPaths_strictInv env cache lib rels items missing trace hinv
    rcases hg : goPaths env cache true lib rels items missing trace with ⟨o, tr2⟩
    rw [hg] at h1
    rcases o with _ | ⟨i2, m2⟩
    · refine ⟨?_, ?_⟩
      · simp only [goAll, hg]
        exact h1.1
      · intro res tr heq
        simp only [goAll, hg] at heq
        simp at heq
    · obtain ⟨hinv2, hm2⟩ := h1.2 (i2, m2) tr2 rfl
      have h2 := ih i2 m2 tr2 hinv2
      refine ⟨?_, ?_⟩
      · simp only [goAll, hg]
        exact h2.1
      · intro res tr heq
        simp only [goAll, hg] at heq
        obtain ⟨hinv3, hm3⟩ := h2.2 res tr heq
        exact ⟨hinv3, by rw [hm3]; exact hm2⟩

/-- The empty state satisfies the strict invariant. -/
theorem strictInv_nil : StrictInv [] [] := by
  constructor
  · exact List.nodup_nil
  · intro k hk; simp at hk

/-- A changed path with no candidate rows makes the strict per-library
loop abort. -/
theorem goPaths_strict_none_of_empty (env : PlexEnv) (cache : List CacheRecord)
    (lib : String) (rel : String) (hc : lookupCache cache lib rel = []) :
    ∀ (rels : List String), rel ∈ rels →
      ∀ items missing trace,
        (goPaths env cache true lib rels items missing trace).1 = none := by
  intro rels
  induction rels with
  | nil => intro h; simp at h
  | cons r rs ih =>
    intro hmem items missing trace
    rcases List.mem_cons.mp hmem with he | he
    · subst he
      simp only [goPaths, goPath, hc, goCands]
      simp
    · simp only [goPaths]
      rcases hg : goPath env cache true lib r items missing trace with ⟨o, tr2⟩
      rcases o with _ | ⟨i2, m2⟩
      · simp
      · exact ih he i2 m2 tr2

/-- A changed path with no candidate rows makes the strict outer loop
abort. -/
theorem goAll_strict_none_of_empty (env : PlexEnv) (cache : List CacheRecord)
    (lib : String) (rels : List String) (rel : String)
    (hc : lookupCache cache lib rel = []) (hrel : rel ∈ rels) :
    ∀ (changed : List (String × List String)), (lib, rels) ∈ changed →
      ∀ items missing trace,
        (goAll env cache true changed items missing trace).1 = none := by
  intro changed
  induction changed with
  | nil => intro h; simp at h
  | cons e rest ih =>
    intro hmem items missing trace
    rcases List.mem_cons.mp hmem with he | he
    · subst he
      simp only [goAll]
      rw [show (goPaths env cache true lib rels items missing trace) =
        ((goPaths env cache true lib rels items missing trace).1,
         (goPaths env cache true lib rels items missing trace).2) from rfl]
      rw [goPaths_strict_none_of_empty env cache lib rel hc rels hrel items missing trace]
    · rcases e with ⟨lib2, rels2⟩
      simp only [goAll]
      rcases hg : goPaths env cache true lib2 rels2 items missing trace with ⟨o, tr2⟩
      rcases o with _ | ⟨i2, m2⟩
      · simp
      · exact ih he i2 m2 tr2

/-- A `LIKE` pattern matches itself. -/
theorem likeMatch_refl (l : List Char) : likeMatch l l = true := by
  induction l with
  | nil => rw [likeMatch.eq_1]
  | cons c cs ih =>
    by_cases h1 : c = '%'
    · subst h1
      have h2 : likeMatch ('%' :: cs) cs = true := by
        cases cs with
        | nil => rw [likeMatch.eq_3, likeMatch.eq_1]; rfl
        | cons d ds =>
          rw [likeMatch.eq_4, ih]
          rfl
      rw [likeMatch.eq_4, h2]
      simp
    · by_cases h2 : c = '_'
      · subst h2
        rw [likeMatch.eq_6]
        exact ih
      · rw [likeMatch.eq_8 c cs c cs (fun h => h1 h) (fun h => h2 h), ih]
        simp [charLike]

/-- A leading `%` absorbs one more subject character. -/
theorem likeMatch_pct_prepend (ps : List Char) (s : List Char)
    (h : likeMatch ('%' :: ps) s = true) (c : Char) :
    likeMatch ('%' :: ps) (c :: s) = true := by
  rw [likeMatch.eq_4]
  simp [h]

/-- A leading `%` may match the empty prefix. -/
theorem likeMatch_pct_of_match (ps s : List Char) (h : likeMatch ps s = true) :
    likeMatch ('%' :: ps) s = true := by
  cases s with
  | nil => rw [likeMatch.eq_3]; simp [h]
  | cons c s2 => rw [likeMatch.eq_4]; simp [h]

/-- The pattern `'%' ++ rel` matches every subject ending in `rel`. -/
theorem likeMatch_suffix (rel : List Char) (pre : List Char) :
    likeMatch ('%' :: rel) (pre ++ rel) = true := by
  induction pre with
  | nil => simpa using likeMatch_pct_of_match rel rel (likeMatch_refl rel)
  | cons c pre ih => simpa using likeMatch_pct_prepend rel (pre ++ rel) ih c

/-! ## Claim theorems -/

/-- C1 (code bug): reconciliation is not idempotent.  With a source that
lost two sibling directories `A` and `B`, the first non-dry run removes
`A` but — because `dirs.remove(dir)` mutates the list being iterated —
skips `B` entirely, so the second run still removes `B` and reports a
non-empty removed metric, where the claim requires every list of the
second run's metrics to be empty. -/
theorem sync_twice_second_run_not_empty :
    sync false [⟨"movie", .dir [], .dir [("A", .dir []), ("B", .dir [])]⟩] =
      some ([⟨"movie", .dir [], .dir [("B", .dir [])]⟩],
        [("movie", ⟨⟨[], []⟩, ⟨[["A"]], []⟩, ⟨[], []⟩⟩)]) ∧
    sync false [⟨"movie", .dir [], .dir [("B", .dir [])]⟩] =
      some ([⟨"movie", .dir [], .dir []⟩],
        [("movie", ⟨⟨[], []⟩, ⟨[["B"]], []⟩, ⟨[], []⟩⟩)]) ∧
    LibMetrics.isEmpty ⟨⟨[], []⟩, ⟨[["B"]], []⟩, ⟨[], []⟩⟩ = false := by
  refine ⟨?_, ?_, ?_⟩ <;>
    simp [sync, syncLib, mergeMetrics, pass1, pass2, walkRemoveIter, lookupChild,
      FSEntry.isDirB, FSEntry.isFileB, SyncMetric.app, LibMetrics.isEmpty,
      SyncMetric.hasValues]

/-- C4 (code bug): during pass 1, the destination directory `B`, whose
source path no longer exists, is *not* removed as a whole: the removal of
its sibling `A` shifts the `dirs` list under the iterator, `B` is skipped,
the walk then descends into it and its child file is individually deleted,
and the empty directory `B` itself survives the pass — where the claim
requires every such directory to be removed whole with its children never
individually visited. -/
theorem pass1_skips_second_removed_sibling :
    pass1 false [] (some (.dir []))
        (.dir [("A", .dir []), ("B", .dir [("x.mkv", .file 3 7)])]) =
      (.dir [("B", .dir [])], ⟨[["A"]], [["B", "x.mkv"]]⟩, ⟨[], []⟩) := by
  simp [pass1, walkRemoveIter, lookupChild, FSEntry.isDirB, FSEntry.isFileB,
    SyncMetric.app]

/-- C2 counterexample: a destination file of the same byte size as its
source counterpart but a different inode is left untouched by a non-dry
reconciliation (sizes are the only drift evidence compared), so the
destination file is not a hardlink of its source counterpart after the
pass, contradicting the claim for arbitrary initial destination trees. -/
theorem sync_leaves_same_size_file_unlinked :
    syncLib false ⟨"movie", .dir [("A.mkv", .file 5 1)], .dir [("A.mkv", .file 5 99)]⟩ =
      (⟨"movie", .dir [("A.mkv", .file 5 1)], .dir [("A.mkv", .file 5 99)]⟩,
        ⟨⟨[], []⟩, ⟨[], []⟩, ⟨[], []⟩⟩) ∧
    fileInfoAt (.dir [("A.mkv", .file 5 99)]) ["A.mkv"] = some (5, 99) ∧
    fileInfoAt (.dir [("A.mkv", .file 5 1)]) ["A.mkv"] = some (5, 1) ∧
    (99 : Nat) ≠ 1 := by
  refine ⟨?_, ?_, ?_, by omega⟩ <;>
    simp [syncLib, pass1, pass2, walkRemoveIter, lookupChild, FSEntry.isDirB,
      FSEntry.isFileB, SyncMetric.app, fileInfoAt, entrySize, entryInode, List.filter]

/-- C3 counterexample: with two cache rows sharing remote key 7, the first
consistent with the live item and the second stale, strict resolution
(`verify=True`) succeeds — the second, mismatching candidate is accepted
through the key-dedup short-circuit without being compared — although the
claim requires the `VerificationFailed` sentinel as soon as any candidate
record mismatches the live item's parts. -/
theorem find_items_strict_mismatch_not_aborted :
    findItems ⟨[], (fun k => if k == 7 then some ⟨7, ["/x/A.mkv"]⟩ else none),
        [⟨"movie", 7, "/x/A.mkv"⟩, ⟨"movie", 7, "/y/A.mkv"⟩]⟩
        [⟨"movie", 7, "/x/A.mkv"⟩, ⟨"movie", 7, "/y/A.mkv"⟩] true
        [("movie", ["A.mkv"])] =
      some ([(7, ⟨7, ["/x/A.mkv"]⟩)], []) ∧
    (⟨"movie", 7, "/y/A.mkv"⟩ : CacheRecord) ∈
      lookupCache [⟨"movie", 7, "/x/A.mkv"⟩, ⟨"movie", 7, "/y/A.mkv"⟩] "movie" "A.mkv" ∧
    isPlexMediaValid ⟨7, ["/x/A.mkv"]⟩ "/y/A.mkv" = false := by
  refine ⟨?_, ?_, ?_⟩ <;>
    simp [findItems, findItemsFull, goAll, goPaths, goPath, goCands, lookupCache,
      lookupAssoc, likeMatchS, likeMatch, isPlexMediaValid, charLike]

/-- C3 (amended): strict resolution never returns a partial result — a
successful strict `find_items` has an empty unresolved map — and a changed
path with no candidate rows at all forces the `None` sentinel.  (As the
counterexample shows, a mismatching candidate aborts the run only when it
is actually checked; a candidate whose key is already resolved is accepted
without verification.) -/
theorem find_items_strict_no_partial (env : PlexEnv) (cache : List CacheRecord)
    (changed : List (String × List String)) :
    (∀ res, findItems env cache true changed = some res → res.2 = []) ∧
    (∀ lib rels rel, (lib, rels) ∈ changed → rel ∈ rels →
      lookupCache cache lib rel = [] → findItems env cache true changed = none) := by
  constructor
  · intro res hres
    have h := goAll_strictInv env cache changed [] [] [] strictInv_nil
    unfold findItems findItemsFull at hres
    rcases hg : goAll env cache true changed [] [] [] with ⟨o, tr⟩
    rw [hg] at hres
    rcases o with _ | r
    · simp at hres
    · simp at hres
      rw [hres] at hg
      exact (h.2 res tr hg).2
  · intro lib rels rel hmem hrel hc
    unfold findItems findItemsFull
    exact goAll_strict_none_of_empty env cache lib rels rel hc hrel changed hmem [] [] []

/-- C3 witness: at a concrete cache with no candidate row for the changed
path, strict resolution returns the failure sentinel. -/
theorem find_items_strict_no_partial_witness :
    findItems ⟨[], (fun _ => none), []⟩ [] true [("movie", ["A.mkv"])] = none :=
  ( find_items_strict_no_partial ⟨[], (fun _ => none), []⟩ [] [("movie", ["A.mkv"])]).2
    "movie" ["A.mkv"] "A.mkv" (by simp) (by simp) (by simp [lookupCache])

/-- C6: permissive resolution (`verify=False`) never returns the failure
sentinel, and no remote key whose fetch succeeds (i.e. that can become a
resolved item) is ever fetched more than once — a path whose key is
already in `analyze_items` is treated as resolved without re-fetching;
paths that stay unresolved are collected in the `missing_items` map
instead of failing the operation. -/
theorem find_items_permissive_total (env : PlexEnv) (cache : List CacheRecord)
    (changed : List (String × List String)) :
    (findItems env cache false changed).isSome = true ∧
    ∀ k, (env.fetch k).isSome = true →
      ((findItemsFull env cache false changed).2).count k ≤ 1 := by
  constructor
  · exact goAll_permissive_isSome env cache changed [] [] []
  · intro k hk
    have hs := goAll_permissive_isSome env cache changed [] [] []
    rcases hg : goAll env cache false changed [] [] [] with ⟨o, tr⟩
    rw [hg] at hs
    rcases o with _ | res
    · simp at hs
    · have hinv := goAll_traceInv env cache changed [] [] [] (traceInv_nil env) res tr hg
      show ((findItemsFull env cache false changed).2).count k ≤ 1
      unfold findItemsFull
      rw [hg]
      exact (hinv k hk).2

/-- C6 witness: a concrete permissive resolution succeeds and fetches the
resolvable key at most once. -/
theorem find_items_permissive_total_witness :
    (findItems ⟨[], (fun k => if k == 1 then some ⟨1, ["A.mkv"]⟩ else none), []⟩
        [⟨"movie", 1, "A.mkv"⟩] false [("movie", ["A.mkv"])]).isSome = true ∧
    ((findItemsFull ⟨[], (fun k => if k == 1 then some ⟨1, ["A.mkv"]⟩ else none), []⟩
        [⟨"movie", 1, "A.mkv"⟩] false [("movie", ["A.mkv"])]).2).count 1 ≤ 1 := by
  have h := find_items_permissive_total
    ⟨[], (fun k => if k == 1 then some ⟨1, ["A.mkv"]⟩ else none), []⟩
    [⟨"movie", 1, "A.mkv"⟩] [("movie", ["A.mkv"])]
  exact ⟨h.1, h.2 1 rfl⟩

/-- C10: in strict mode (`verify=True`) the fetch trace of `find_items` is
duplicate-free: a candidate record whose remote key is already in
`analyze_items` is accepted without fetching or comparing parts, so live
verification is performed for at most one candidate per distinct remote
key. -/
theorem find_items_strict_fetch_nodup (env : PlexEnv) (cache : List CacheRecord)
    (changed : List (String × List String)) :
    ((findItemsFull env cache true changed).2).Nodup := by
  have h := goAll_strictInv env cache changed [] [] [] strictInv_nil
  unfold findItemsFull
  exact h.1

/-- C7 counterexample: the `LIKE '%' + rel` lookup matches a record whose
canonical path merely ends with the same character sequence: the record
path `BA.mkv` is returned for the changed path `A.mkv` although no path
separator precedes the match, contradicting the separator-boundary
requirement of the claim. -/
theorem lookup_matches_without_separator_boundary :
    lookupCache [⟨"movie", 1, "BA.mkv"⟩] "movie" "A.mkv" = [⟨"movie", 1, "BA.mkv"⟩] ∧
    ∀ pre : List Char, ("BA.mkv" : String).data ≠ pre ++ ('/' :: ("A.mkv" : String).data) := by
  constructor
  · simp [lookupCache, likeMatchS, likeMatch, charLike]
  · intro pre hp
    have h1 : ("BA.mkv" : String).data = ['B', 'A', '.', 'm', 'k', 'v'] := rfl
    have h2 : '/' :: ("A.mkv" : String).data = ['/', 'A', '.', 'm', 'k', 'v'] := rfl
    rw [h1, h2] at hp
    cases pre with
    | nil => exact absurd hp (by decide)
    | cons a as =>
      have hl := congrArg List.length hp
      simp [List.length_append] at hl

/-- C7 (amended): the lookup is a raw `LIKE` suffix match with no
separator-boundary requirement: every cache record of the requested
library kind whose canonical path ends with the changed relative path (as
a character sequence — in particular every match at a separator boundary)
is among the returned rows. -/
theorem lookup_returns_suffix_matches (cache : List CacheRecord) (lib : String)
    (r : CacheRecord) (rel : String) (hmem : r ∈ cache) (hlib : r.lib = lib)
    (hsuf : ∃ pre, r.path.data = pre ++ rel.data) :
    r ∈ lookupCache cache lib rel := by
  apply List.mem_filter.mpr
  refine ⟨hmem, ?_⟩
  obtain ⟨pre, hp⟩ := hsuf
  have h1 : (r.lib == lib) = true := by simp [hlib]
  have h2 : likeMatchS ("%" ++ rel) r.path = true := by
    unfold likeMatchS
    rw [String.data_append, hp]
    have h3 : ("%" : String).data = ['%'] := rfl
    rw [h3]
    exact likeMatch_suffix rel.data pre
  simp [h1, h2]

/-- C7 witness: a record whose path ends with the changed path at a
separator boundary is returned by the lookup. -/
theorem lookup_returns_suffix_matches_witness :
    (⟨"movie", 2, "x/A.mkv"⟩ : CacheRecord) ∈
      lookupCache [⟨"movie", 2, "x/A.mkv"⟩] "movie" "A.mkv" :=
  lookup_returns_suffix_matches [⟨"movie", 2, "x/A.mkv"⟩] "movie"
    ⟨"movie", 2, "x/A.mkv"⟩ "A.mkv" (by simp) rfl ⟨['x', '/'], rfl⟩

/-- Neither the skipped nor the dry-run nor the triggered refresh ever
emits a cache rebuild. -/
theorem refreshLibrariesEvents_no_rebuild (cfg : Config) :
    (refreshLibrariesEvents cfg).count REvent.rebuildCache = 0 := by
  unfold refreshLibrariesEvents
  split
  · simp
  · split <;> simp

/-- Fetch events are never cache rebuilds. -/
theorem count_rebuild_map_fetch (tr : List Nat) :
    (tr.map REvent.fetchItem).count REvent.rebuildCache = 0 := by
  rw [List.count_eq_zero]
  intro h
  obtain ⟨a, _, ha⟩ := List.mem_map.mp h
  simp at ha

/-- Analyze events are never cache rebuilds. -/
theorem count_rebuild_analyzeEvents (cfg : Config) (items : List (Nat × MediaItem)) :
    (analyzeEvents cfg items).count REvent.rebuildCache = 0 := by
  unfold analyzeEvents
  split
  · simp
  · rw [List.count_eq_zero]
    intro h
    obtain ⟨a, _, ha⟩ := List.mem_map.mp h
    simp at ha

/-- C5: whenever some library kind has changed values and analyze is not
skipped, `update_server` resolves the changed paths with
`verify = not refresh_cache`; when and only when that first resolution
returns the failure sentinel, the cache is rebuilt exactly once and the
resolution is retried with `verify=False`. -/
theorem analyze_retry_protocol (env : PlexEnv) (cfg : Config) (cache : List CacheRecord)
    (m : List (String × LibMetrics))
    (hchanged : (m.any fun e => e.2.changed.hasValues) = true)
    (hskip : cfg.skipAnalyze = false) :
    (updateServer env cfg cache (some m)).resolveCalls =
      (if (findItemsFull env cache (!cfg.refreshCache)
            (m.map fun e => (e.1, e.2.changed.files.map joinRel))).1 = none
       then [!cfg.refreshCache, false] else [!cfg.refreshCache]) ∧
    ((updateServer env cfg cache (some m)).events.count REvent.rebuildCache) =
      (if (findItemsFull env cache (!cfg.refreshCache)
            (m.map fun e => (e.1, e.2.changed.files.map joinRel))).1 = none
       then 1 else 0) := by
  have hm : m ≠ [] := by
    intro h; rw [h] at hchanged; simp at hchanged
  have hne : m.isEmpty = false := by
    cases m with
    | nil => exact absurd rfl hm
    | cons a as => simp
  have hch : (m.map fun e => (e.1, e.2.changed.files.map joinRel)).isEmpty = false := by
    cases m with
    | nil => exact absurd rfl hm
    | cons a as => simp
  have hrefresh := refreshLibrariesEvents_no_rebuild cfg
  unfold updateServer
  simp only [hne, Bool.false_eq_true, if_false, hchanged, if_true]
  unfold analyzeLibraries
  simp only [hskip, Bool.false_eq_true, if_false, hch]
  have hrev : (if (m.any fun e => e.2.added.hasValues || e.2.removed.hasValues) = true
      then refreshLibrariesEvents cfg else []).count REvent.rebuildCache = 0 := by
    split
    · exact hrefresh
    · simp
  rcases hr : (findItemsFull env cache (!cfg.refreshCache)
      (m.map fun e => (e.1, e.2.changed.files.map joinRel))).1 with _ | res
  · simp [hr, List.count_append, count_rebuild_map_fetch, count_rebuild_analyzeEvents, hrev]
  · simp [hr, List.count_append, count_rebuild_map_fetch, count_rebuild_analyzeEvents, hrev]

/-- C5 witness: at a concrete configuration (no forced rebuild) whose
strict resolution fails on an empty cache, the orchestrator performs the
strict call followed by the permissive retry. -/
theorem analyze_retry_protocol_witness :
    (updateServer ⟨[], (fun _ => none), []⟩ ⟨false, false, false, false, []⟩ []
        (some [("movie", ⟨⟨[], []⟩, ⟨[], []⟩, ⟨[], [["A.mkv"]]⟩⟩)])).resolveCalls =
      [true, false] := by
  have h := (analyze_retry_protocol ⟨[], (fun _ => none), []⟩
    ⟨false, false, false, false, []⟩ []
    [("movie", ⟨⟨[], []⟩, ⟨[], []⟩, ⟨[], [["A.mkv"]]⟩⟩)] rfl rfl).1
  simpa [findItemsFull, goAll, goPaths, goPath, goCands, lookupCache, lookupAssoc,
    likeMatchS, likeMatch, charLike, joinRel_single] using h

/-- C8 counterexample: with dry-run set, a failing strict verification
still triggers `refresh_cache`, which drops and rewrites the persisted
cache table — a state-changing action beyond a verification read, executed
during a dry run, contradicting the claim that every mutating action of
the whole run is suppressed. -/
theorem dry_run_still_rebuilds_cache :
    (⟨true, false, false, false, []⟩ : Config).dryRun = true ∧
    (updateServer ⟨[("movie", [⟨7, ["/x/A.mkv"]⟩])], (fun _ => none), []⟩
        ⟨true, false, false, false, []⟩ []
        (some [("movie", ⟨⟨[], []⟩, ⟨[], []⟩, ⟨[], [["A.mkv"]]⟩⟩)])).events =
      [REvent.rebuildCache, REvent.fetchItem 7] := by
  refine ⟨rfl, ?_⟩
  simp [updateServer, analyzeLibraries, analyzeEvents, findItemsFull, goAll, goPaths,
    goPath, goCands, lookupCache, lookupAssoc, likeMatchS, likeMatch, charLike,
    rebuildRecords, refreshLibrariesEvents, SyncMetric.hasValues, joinRel_single,
    isPlexMediaValid]

/-- C9 counterexample: with no library mappings in the active set, the run
still contacts the remote service: constructing the client connects and
lists the library sections before the empty check is ever reached, so the
trace of a no-mapping run is not free of remote interaction. -/
theorem run_contacts_server_with_no_mappings :
    (⟨false, false, false, false, []⟩ : Config).plexLibs = [] ∧
    REvent.listSections ∈
      (runModel ⟨[], (fun _ => none), []⟩ ⟨false, false, false, false, []⟩).1 := by
  refine ⟨rfl, ?_⟩
  simp [runModel, sync, updateServer]

/-- C9 (amended): with no library mappings (and no forced cache rebuild),
the run performs no remote action beyond the section listing done by the
client constructor: no fetch, no cache rebuild, no refresh and no analyze
— `sync` returns the `None` sentinel and `update_server` returns at once. -/
theorem run_no_remote_actions_when_no_mappings (env : PlexEnv) (cfg : Config)
    (h1 : cfg.plexLibs = []) (h2 : cfg.refreshCache = false) :
    (runModel env cfg).1 = [REvent.listSections] := by
  simp [runModel, h1, h2, sync, updateServer]

/-- C9 witness: the amended statement at a concrete empty configuration. -/
theorem run_no_remote_actions_when_no_mappings_witness :
    (runModel ⟨[], (fun _ => none), []⟩ ⟨false, false, false, false, []⟩).1 =
      [REvent.listSections] :=
  run_no_remote_actions_when_no_mappings ⟨[], (fun _ => none), []⟩
    ⟨false, false, false, false, []⟩ rfl rfl

/-- Induction over a tree through the nested children lists. -/
theorem FSEntry.inductionOn {motive : FSEntry → Prop}
    (hfile : ∀ s i, motive (.file s i))
    (hdir : ∀ ch, (∀ c ∈ ch, motive c.2) → motive (.dir ch)) :
    ∀ e, motive e
  | .file s i => hfile s i
  | .dir ch => hdir ch fun c _hc => FSEntry.inductionOn hfile hdir c.2
termination_by e => sizeOf e
decreasing_by
  have h3 := List.sizeOf_lt_of_mem _hc
  obtain ⟨n, e2⟩ := c
  simp_wf
  simp only [Prod.mk.sizeOf_spec] at h3
  omega

/-- Every entry is a directory or a file. -/
theorem isFileB_eq_not_isDirB (e : FSEntry) : e.isFileB = !e.isDirB := by
  cases e <;> rfl

/-- A file entry is rebuilt unchanged from its size and inode. -/
theorem file_eta (e : FSEntry) (h : e.isFileB = true) :
    FSEntry.file (entrySize e) (entryInode e) = e := by
  cases e with
  | file s i => rfl
  | dir ch => simp [FSEntry.isFileB] at h

/-- The Boolean name-uniqueness test agrees with `List.Nodup`. -/
theorem nodupNames_iff (l : List String) : nodupNames l = true ↔ l.Nodup := by
  induction l with
  | nil => simp [nodupNames]
  | cons n ns ih =>
    simp [nodupNames, ih, List.nodup_cons]

/-- Characterization of tree well-formedness at a directory node. -/
theorem wfFS_dir (ch : List (String × FSEntry)) :
    wfFS (.dir ch) = true ↔
      nodupNames (namesOf ch) = true ∧ ∀ c ∈ ch, wfFS c.2 = true := by
  rw [wfFS]
  rw [Bool.and_eq_true]
  constructor
  · rintro ⟨h1, h2⟩
    refine ⟨h1, ?_⟩
    intro c hc
    have := List.all_eq_true.mp h2 ⟨c, hc⟩ (List.mem_attach _ _)
    exact this
  · rintro ⟨h1, h2⟩
    refine ⟨h1, ?_⟩
    apply List.all_eq_true.mpr
    intro x _
    exact h2 x.1 x.2

/-- Filtering preserves name uniqueness. -/
theorem nodupNames_filter (ch : List (String × FSEntry)) (p : String × FSEntry → Bool)
    (hnd : nodupNames (namesOf ch) = true) :
    nodupNames (namesOf (ch.filter p)) = true := by
  rw [nodupNames_iff] at *
  have hsub : List.Sublist (namesOf (ch.filter p)) (namesOf ch) :=
    List.Sublist.map _ (List.filter_sublist ch)
  exact hsub.nodup hnd

/-- With unique sibling names, a child lookup finds exactly the member. -/
theorem lookupChild_eq_some_iff (ch : List (String × FSEntry)) :
    nodupNames (namesOf ch) = true → ∀ (n : String) (e : FSEntry),
      (lookupChild ch n = some e ↔ (n, e) ∈ ch) := by
  induction ch with
  | nil => intro _ n e; simp [lookupChild]
  | cons c cs ih =>
    intro hnd n e
    obtain ⟨cn, ce⟩ := c
    have hnd2 : nodupNames (namesOf cs) = true := by
      rw [nodupNames_iff] at hnd ⊢
      exact (List.nodup_cons.mp hnd).2
    have hnotin : cn ∉ namesOf cs := by
      rw [nodupNames_iff] at hnd
      exact (List.nodup_cons.mp hnd).1
    by_cases hc : cn = n
    · subst hc
      have hfind : lookupChild ((cn, ce) :: cs) cn = some ce := by
        simp [lookupChild]
      rw [hfind]
      simp only [Option.some.injEq, List.mem_cons, Prod.mk.injEq]
      constructor
      · intro h
        exact Or.inl ⟨trivial, h.symm⟩
      · rintro (⟨_, h⟩ | h)
        · exact h.symm
        · exact absurd (List.mem_map.mpr ⟨(cn, e), h, rfl⟩) hnotin
    · have hfind : lookupChild ((cn, ce) :: cs) n = lookupChild cs n := by
        simp [lookupChild, hc]
      rw [hfind, ih hnd2 n e]
      simp only [List.mem_cons, Prod.mk.injEq]
      constructor
      · intro h
        exact Or.inr h
      · rintro (⟨h1, _⟩ | h)
        · exact absurd h1.symm hc
        · exact h

/-- A name absent from the listing makes the lookup fail. -/
theorem lookupChild_eq_none_iff (ch : List (String × FSEntry)) (n : String) :
    lookupChild ch n = none ↔ n ∉ namesOf ch := by
  simp only [lookupChild, Option.map_eq_none', List.find?_eq_none, namesOf]
  constructor
  · intro h hmem
    obtain ⟨c, hc, hcn⟩ := List.mem_map.mp hmem
    exact absurd (by simp [hcn]) (h c hc)
  · intro h c hc
    simp only [beq_iff_eq]
    intro he
    exact h (List.mem_map.mpr ⟨c, hc, he⟩)

/-- Unfolding of `mirrorFS` at a directory, with the nested `attach`
eliminated. -/
theorem mirrorFS_dir (ch : List (String × FSEntry)) :
    mirrorFS (.dir ch) =
      .dir ((ch.filter fun c => c.2.isDirB).map (fun c => (c.1, mirrorFS c.2)) ++
            ch.filter fun c => c.2.isFileB) := by
  rw [mirrorFS]
  rw [List.attach_map_val (ch.filter fun c => c.2.isDirB) fun d => (d.1, mirrorFS d.2)]

/-- Membership in the children of a mirrored directory. -/
theorem mem_mirror_children (ch : List (String × FSEntry)) (n : String) (m : FSEntry) :
    ((n, m) ∈ (ch.filter fun c => c.2.isDirB).map (fun c => (c.1, mirrorFS c.2)) ++
        ch.filter (fun c => c.2.isFileB)) ↔
      ∃ e, (n, e) ∈ ch ∧ m = mirrorFS e := by
  constructor
  · intro h
    rcases List.mem_append.mp h with h | h
    · obtain ⟨c, hc, heq⟩ := List.mem_map.mp h
      obtain ⟨hc1, _⟩ := List.mem_filter.mp hc
      obtain ⟨cn, ce⟩ := c
      simp only [Prod.mk.injEq] at heq
      exact ⟨ce, by rw [heq.1] at hc1; exact hc1, heq.2.symm⟩
    · obtain ⟨hc1, hc2⟩ := List.mem_filter.mp h
      refine ⟨m, hc1, ?_⟩
      cases m with
      | file s i => rw [mirrorFS]
      | dir l => simp [FSEntry.isFileB] at hc2
  · rintro ⟨e, he, hm⟩
    cases e with
    | file s i =>
      have hm2 : m = FSEntry.file s i := by rw [hm, mirrorFS]
      subst hm2
      apply List.mem_append.mpr
      right
      exact List.mem_filter.mpr ⟨he, rfl⟩
    | dir l =>
      apply List.mem_append.mpr
      left
      exact List.mem_map.mpr ⟨(n, .dir l), List.mem_filter.mpr ⟨he, rfl⟩, by rw [hm]⟩

/-- Mirroring preserves the (unique) sibling names. -/
theorem nodupNames_mirror_children (ch : List (String × FSEntry))
    (hnd : nodupNames (namesOf ch) = true) :
    nodupNames (namesOf ((ch.filter fun c => c.2.isDirB).map (fun c => (c.1, mirrorFS c.2)) ++
      ch.filter fun c => c.2.isFileB)) = true := by
  rw [nodupNames_iff] at *
  have hperm : List.Perm
      ((ch.filter fun c => c.2.isDirB) ++ ch.filter fun c => c.2.isFileB) ch := by
    have h1 := List.filter_append_perm (fun c => c.2.isDirB) ch
    have h2 : (ch.filter fun c => !c.2.isDirB) = ch.filter fun c => c.2.isFileB := by
      apply List.filter_congr
      intro c _
      rw [isFileB_eq_not_isDirB]
    rw [h2] at h1
    exact h1
  have hnames : namesOf ((ch.filter fun c => c.2.isDirB).map (fun c => (c.1, mirrorFS c.2)) ++
      ch.filter fun c => c.2.isFileB) =
      namesOf ((ch.filter fun c => c.2.isDirB) ++ ch.filter fun c => c.2.isFileB) := by
    unfold namesOf
    rw [List.map_append, List.map_append, List.map_map]
    rfl
  rw [hnames]
  unfold namesOf at hnd ⊢
  exact ((hperm.map fun c => c.1).nodup_iff).mpr hnd

/-- Child lookup in a mirrored directory. -/
theorem lookupChild_mirror_children (ch : List (String × FSEntry))
    (hnd : nodupNames (namesOf ch) = true) (n : String) :
    lookupChild ((ch.filter fun c => c.2.isDirB).map (fun c => (c.1, mirrorFS c.2)) ++
        ch.filter fun c => c.2.isFileB) n =
      (lookupChild ch n).map mirrorFS := by
  rcases he : lookupChild ch n with _ | e
  · rw [Option.map_none']
    rw [lookupChild_eq_none_iff] at he ⊢
    intro hmem
    apply he
    obtain ⟨c, hc, hcn⟩ := List.mem_map.mp hmem
    obtain ⟨cn, ce⟩ := c
    obtain ⟨e2, he2, _⟩ := (mem_mirror_children ch cn ce).mp hc
    rw [← hcn]
    exact List.mem_map.mpr ⟨(cn, e2), he2, rfl⟩
  · rw [Option.map_some']
    rw [lookupChild_eq_some_iff _ (nodupNames_mirror_children ch hnd)]
    apply (mem_mirror_children ch n (mirrorFS e)).mpr
    exact ⟨e, (lookupChild_eq_some_iff ch hnd n e).mp he, rfl⟩

/-- Mirroring preserves the file contents at every path. -/
theorem fileInfoAt_mirror (t : FSEntry) :
    wfFS t = true → ∀ p, fileInfoAt (mirrorFS t) p = fileInfoAt t p := by
  induction t using FSEntry.inductionOn with
  | hfile s i => intro _ p; rw [mirrorFS]
  | hdir ch ih =>
    intro hw p
    obtain ⟨hnd, hwf⟩ := (wfFS_dir ch).mp hw
    rw [mirrorFS_dir]
    cases p with
    | nil => simp [fileInfoAt]
    | cons n rest =>
      rw [fileInfoAt, fileInfoAt]
      rw [lookupChild_mirror_children ch hnd n]
      rcases he : lookupChild ch n with _ | e
      · rfl
      · rw [Option.map_some']
        have hmem : (n, e) ∈ ch := (lookupChild_eq_some_iff ch hnd n e).mp he
        exact ih (n, e) hmem (hwf (n, e) hmem) rest

/-- Unfolding of `pathsOf` at a directory, with the nested `attach`
eliminated. -/
theorem pathsOf_dir (ch : List (String × FSEntry)) :
    pathsOf (.dir ch) =
      ch.flatMap fun c => [c.1] :: (pathsOf c.2).map fun p => c.1 :: p := by
  rw [pathsOf]
  show List.flatten (ch.attach.map fun c =>
      (fun d => [d.1] :: (pathsOf d.2).map fun p => d.1 :: p) c.1) = _
  rw [List.attach_map_val ch fun d => [d.1] :: (pathsOf d.2).map fun p => d.1 :: p]
  rfl

/-- Membership in the paths of a directory. -/
theorem mem_pathsOf_dir (ch : List (String × FSEntry)) (p : RelPath) :
    p ∈ pathsOf (.dir ch) ↔
      ∃ c ∈ ch, p = [c.1] ∨ ∃ q ∈ pathsOf c.2, p = c.1 :: q := by
  rw [pathsOf_dir, List.mem_flatMap]
  constructor
  · rintro ⟨c, hc, hp⟩
    refine ⟨c, hc, ?_⟩
    rcases List.mem_cons.mp hp with h | h
    · exact Or.inl h
    · obtain ⟨q, hq, hqe⟩ := List.mem_map.mp h
      exact Or.inr ⟨q, hq, hqe.symm⟩
  · rintro ⟨c, hc, h | ⟨q, hq, hqe⟩⟩
    · exact ⟨c, hc, by rw [h]; exact List.mem_cons_self _ _⟩
    · exact ⟨c, hc, by rw [hqe]; exact List.mem_cons_of_mem _ (List.mem_map.mpr ⟨q, hq, rfl⟩)⟩

/-- Mirroring preserves the set of relative paths. -/
theorem pathsOf_mirror (t : FSEntry) :
    wfFS t = true → ∀ p, (p ∈ pathsOf (mirrorFS t) ↔ p ∈ pathsOf t) := by
  induction t using FSEntry.inductionOn with
  | hfile s i => intro _ p; rw [mirrorFS]
  | hdir ch ih =>
    intro hw p
    obtain ⟨hnd, hwf⟩ := (wfFS_dir ch).mp hw
    rw [mirrorFS_dir, mem_pathsOf_dir, mem_pathsOf_dir]
    constructor
    · rintro ⟨c, hc, hp⟩
      obtain ⟨cn, cm⟩ := c
      obtain ⟨e, he, hme⟩ := (mem_mirror_children ch cn cm).mp hc
      refine ⟨(cn, e), he, ?_⟩
      rcases hp with h | ⟨q, hq, hqe⟩
      · exact Or.inl h
      · refine Or.inr ⟨q, ?_, hqe⟩
        rw [hme] at hq
        exact (ih (cn, e) he (hwf (cn, e) he) q).mp hq
    · rintro ⟨c, hc, hp⟩
      obtain ⟨cn, ce⟩ := c
      refine ⟨(cn, mirrorFS ce), (mem_mirror_children ch cn (mirrorFS ce)).mpr ⟨ce, hc, rfl⟩, ?_⟩
      rcases hp with h | ⟨q, hq, hqe⟩
      · exact Or.inl h
      · exact Or.inr ⟨q, (ih (cn, ce) hc (hwf (cn, ce) hc) q).mpr hq, hqe⟩

/-- With unique names, searching the name-keyed image of a list finds the
image of the member. -/
theorem find_map_of_nodup {β : Type} (l : List (String × FSEntry)) :
    nodupNames (namesOf l) = true → ∀ (f : String × FSEntry → β) (c : String × FSEntry),
      c ∈ l →
      ((l.map fun d => (d.1, f d)).find? fun r => r.1 == c.1) = some (c.1, f c) := by
  induction l with
  | nil => intro _ f c hc; simp at hc
  | cons d ds ih =>
    intro hnd f c hc
    have hnd2 : nodupNames (namesOf ds) = true := by
      rw [nodupNames_iff] at hnd ⊢
      exact (List.nodup_cons.mp hnd).2
    have hnotin : d.1 ∉ namesOf ds := by
      rw [nodupNames_iff] at hnd
      exact (List.nodup_cons.mp hnd).1
    rcases List.mem_cons.mp hc with he | he
    · subst he
      simp only [List.map_cons]
      rw [List.find?_cons_of_pos _ (by simp)]
    · have hne : d.1 ≠ c.1 := by
        intro h
        apply hnotin
        rw [h]
        exact List.mem_map.mpr ⟨c, he, rfl⟩
      simp only [List.map_cons]
      rw [List.find?_cons_of_neg _ (by simp [hne])]
      exact ih hnd2 f c he

theorem pass2_empty_dest (src : FSEntry) :
    wfFS src = true → src.isDirB = true → ∀ pre,
      (pass2 false pre src (some (.dir []))).1 = some (mirrorFS src) := by
  induction src using FSEntry.inductionOn with
  | hfile s i => intro _ hd pre; simp [FSEntry.isDirB] at hd
  | hdir ch ih =>
    intro hw _ pre
    obtain ⟨hnd, hwf⟩ := (wfFS_dir ch).mp hw
    rw [mirrorFS_dir]
    rw [pass2]
    simp only [lookupChild, List.find?_nil, Option.map_none', Option.isNone_none,
      List.filter_true, Bool.false_eq_true, if_false, List.nil_append]
    rw [List.attach_map_val (ch.filter fun c => c.2.isDirB)
      (fun d => (d.1, pass2 false (pre ++ [d.1]) d.2 (some (FSEntry.dir []))))]
    refine congrArg (fun l => some (FSEntry.dir l)) ?_
    rw [List.map_append]
    congr 1
    · rw [List.map_map]
      apply List.map_congr_left
      intro c hc
      obtain ⟨hc1, hc2⟩ := List.mem_filter.mp hc
      have hnd2 := nodupNames_filter ch (fun c => c.2.isDirB) hnd
      simp only [Function.comp_apply]
      rw [show (((c.1, FSEntry.dir []) : String × FSEntry).2).isDirB = true from rfl]
      simp only [if_true]
      rw [show ((c.1, FSEntry.dir []) : String × FSEntry).1 = c.1 from rfl]
      rw [find_map_of_nodup (ch.filter fun c => c.2.isDirB) hnd2
        (fun d => pass2 false (pre ++ [d.1]) d.2 (some (FSEntry.dir []))) c hc]
      simp only []
      rw [ih c hc1 (hwf c hc1) hc2 (pre ++ [c.1])]
      rfl
    · rw [List.map_map]
      conv_rhs => rw [← List.map_id (ch.filter fun c => c.2.isFileB)]
      apply List.map_congr_left
      intro c hc
      obtain ⟨_, hc2⟩ := List.mem_filter.mp hc
      simp only [Function.comp_apply, id]
      rw [show ((FSEntry.file (entrySize c.2) (entryInode c.2)).isDirB) = false from rfl]
      simp only [Bool.false_eq_true, if_false]
      rw [file_eta c.2 hc2]

/-- Pass 1 over an empty destination does nothing. -/
theorem pass1_empty_dest (dry : Bool) (pre : RelPath) (srcOpt : Option FSEntry) :
    pass1 dry pre srcOpt (.dir []) = (.dir [], ⟨[], []⟩, ⟨[], []⟩) := by
  simp [pass1, walkRemoveIter]

/-- C2 (amended): starting from an empty destination, one non-dry-run
reconciliation pass over a mapping with a well-formed source tree produces
a destination with exactly the source's set of relative paths, whose every
file carries its source counterpart's size and inode (a hardlink of it). -/
theorem sync_from_empty_dest_mirrors_source (src : FSEntry) (hw : wfFS src = true)
    (hd : src.isDirB = true) :
    (∀ p, p ∈ pathsOf (syncLib false ⟨"movie", src, .dir []⟩).1.dest ↔ p ∈ pathsOf src) ∧
    (∀ p, fileInfoAt (syncLib false ⟨"movie", src, .dir []⟩).1.dest p = fileInfoAt src p) := by
  have hdest : (syncLib false ⟨"movie", src, .dir []⟩).1.dest = mirrorFS src := by
    unfold syncLib
    rw [pass1_empty_dest]
    simp only []
    rw [pass2_empty_dest src hw hd []]
    rfl
  rw [hdest]
  exact ⟨pathsOf_mirror src hw, fileInfoAt_mirror src hw⟩

/-- C2 witness: the amended statement at a concrete one-movie source tree,
checked at the file's relative path. -/
theorem sync_from_empty_dest_mirrors_source_witness :
    ((["movies", "A.mkv"] ∈ pathsOf (syncLib false ⟨"movie",
        .dir [("movies", .dir [("A.mkv", .file 10 1)])], .dir []⟩).1.dest ↔
      ["movies", "A.mkv"] ∈ pathsOf (.dir [("movies", .dir [("A.mkv", .file 10 1)])])) ∧
    fileInfoAt (syncLib false ⟨"movie",
        .dir [("movies", .dir [("A.mkv", .file 10 1)])], .dir []⟩).1.dest
        ["movies", "A.mkv"] =
      fileInfoAt (.dir [("movies", .dir [("A.mkv", .file 10 1)])]) ["movies", "A.mkv"]) := by
  have hwf : wfFS (.dir [("movies", .dir [("A.mkv", FSEntry.file 10 1)])]) = true := by
    rw [wfFS_dir]
    refine ⟨rfl, ?_⟩
    intro c hc
    simp at hc
    rw [hc]
    rw [wfFS_dir]
    refine ⟨rfl, ?_⟩
    intro c2 hc2
    simp at hc2
    rw [hc2]
    simp [wfFS]
  have h := sync_from_empty_dest_mirrors_source
    (.dir [("movies", .dir [("A.mkv", .file 10 1)])]) hwf rfl
  exact ⟨h.1 ["movies", "A.mkv"], h.2 ["movies", "A.mkv"]⟩

/-- The kept list of the buggy removal loop is a sublist of the input. -/
theorem walkRemoveIter_kept_sublist {α : Type} (p : α → Bool) :
    ∀ (l : List α), List.Sublist (walkRemoveIter p l).1 l := by
  intro l
  induction l using walkRemoveIter.induct p with
  | case1 => simp [walkRemoveIter]
  | case2 a hp => simp [walkRemoveIter, hp]
  | case3 a hp => simp [walkRemoveIter, hp]
  | case4 a b rest hp ih =>
    simp only [walkRemoveIter, hp, if_true]
    exact List.Sublist.cons _ (List.Sublist.cons₂ _ ih)
  | case5 a b rest hp ih =>
    simp only [walkRemoveIter, hp]
    simp only [Bool.false_eq_true, if_false]
    exact List.Sublist.cons₂ _ ih

/-- Every element of the input lands in the kept or the removed list. -/
theorem walkRemoveIter_partition {α : Type} (p : α → Bool) :
    ∀ (l : List α) (x : α), x ∈ l →
      x ∈ (walkRemoveIter p l).1 ∨ x ∈ (walkRemoveIter p l).2 := by
  intro l
  induction l using walkRemoveIter.induct p with
  | case1 => simp
  | case2 a hp => intro x hx; simp [walkRemoveIter, hp]; simp at hx; exact hx
  | case3 a hp => intro x hx; simp [walkRemoveIter, hp]; simp at hx; exact hx
  | case4 a b rest hp ih =>
    intro x hx
    simp only [walkRemoveIter, hp, if_true]
    rcases List.mem_cons.mp hx with h | hx2
    · right; simp [h]
    · rcases List.mem_cons.mp hx2 with h | hx3
      · left; simp [h]
      · rcases ih x hx3 with h | h
        · left; simp [h]
        · right; simp [h]
  | case5 a b rest hp ih =>
    intro x hx
    simp only [walkRemoveIter, hp]
    simp only [Bool.false_eq_true, if_false]
    rcases List.mem_cons.mp hx with h | hx2
    · left; simp [h]
    · rcases ih x hx2 with h | h
      · left; simp [h]
      · right; exact h

/-- A `filterMap` that keeps every element pointwise is the identity. -/
theorem filterMap_self_of_mem {α : Type} (l : List α) (F : α → Option α)
    (h : ∀ c ∈ l, F c = some c) : l.filterMap F = l := by
  induction l with
  | nil => simp
  | cons c cs ih =>
    rw [List.filterMap_cons, h c (List.mem_cons_self c cs)]
    rw [ih fun d hd => h d (List.mem_cons_of_mem c hd)]

/-- Fold congruence: pointwise equal step functions fold equally. -/
theorem foldl_congr_mem {α γ : Type} (l : List γ) (f g : α → γ → α) :
    (∀ a x, x ∈ l → f a x = g a x) → ∀ i, l.foldl f i = l.foldl g i := by
  induction l with
  | nil => intro _ i; rfl
  | cons c cs ih =>
    intro h i
    rw [List.foldl_cons, List.foldl_cons, h i c (List.mem_cons_self c cs)]
    exact ih (fun a x hx => h a x (List.mem_cons_of_mem c hx)) _

/-- With unique names, two members with the same name coincide. -/
theorem eq_of_name_eq (ch : List (String × FSEntry))
    (hnd : nodupNames (namesOf ch) = true) (c d : String × FSEntry)
    (hc : c ∈ ch) (hd : d ∈ ch) (he : c.1 = d.1) : c = d := by
  rw [nodupNames_iff] at hnd
  induction ch with
  | nil => simp at hc
  | cons x xs ih =>
    have hnotin : x.1 ∉ namesOf xs := (List.nodup_cons.mp hnd).1
    rcases List.mem_cons.mp hc with h1 | h1 <;> rcases List.mem_cons.mp hd with h2 | h2
    · rw [h1, h2]
    · exfalso
      apply hnotin
      rw [h1] at he
      exact List.mem_map.mpr ⟨d, h2, he.symm⟩
    · exfalso
      apply hnotin
      rw [h2] at he
      exact List.mem_map.mpr ⟨c, h1, he⟩
    · exact ih (List.nodup_cons.mp hnd).2 h1 h2

/-- Child lookup through a name-preserving `filterMap`. -/
theorem lookupChild_filterMap (dc : List (String × FSEntry))
    (F : String × FSEntry → Option (String × FSEntry))
    (hF : ∀ c r, F c = some r → r.1 = c.1) :
    nodupNames (namesOf dc) = true → ∀ n,
      lookupChild (dc.filterMap F) n =
        match lookupChild dc n with
        | none => none
        | some e => (F (n, e)).map fun r => r.2 := by
  induction dc with
  | nil => intro _ n; simp [lookupChild]
  | cons c cs ih =>
    intro hnd n
    have hnd2 : nodupNames (namesOf cs) = true := by
      rw [nodupNames_iff] at hnd ⊢
      exact (List.nodup_cons.mp hnd).2
    have hnotin : c.1 ∉ namesOf cs := by
      rw [nodupNames_iff] at hnd
      exact (List.nodup_cons.mp hnd).1
    by_cases hc : c.1 = n
    · subst hc
      have hhead : lookupChild (c :: cs) c.1 = some c.2 := by
        simp [lookupChild]
      rw [hhead, List.filterMap_cons]
      have hnone : lookupChild (cs.filterMap F) c.1 = none := by
        rw [lookupChild_eq_none_iff]
        intro hmem
        apply hnotin
        obtain ⟨r, hr, hrn⟩ := List.mem_map.mp hmem
        obtain ⟨d, hd, hFd⟩ := List.mem_filterMap.mp hr
        rw [← hrn, hF d r hFd]
        exact List.mem_map.mpr ⟨d, hd, rfl⟩
      rcases hFc : F c with _ | r
      · rw [hnone]
        show none = (F (c.1, c.2)).map fun r => r.2
        rw [show ((c.1, c.2) : String × FSEntry) = c from rfl, hFc]
        rfl
      · have hr1 : r.1 = c.1 := hF c r hFc
        have hhead2 : lookupChild (r :: cs.filterMap F) c.1 = some r.2 := by
          simp [lookupChild, List.find?_cons_of_pos, hr1]
        rw [hhead2]
        show some r.2 = (F (c.1, c.2)).map fun r => r.2
        rw [show ((c.1, c.2) : String × FSEntry) = c from rfl, hFc]
        rfl
    · have hhead : lookupChild (c :: cs) n = lookupChild cs n := by
        simp [lookupChild, hc]
      rw [hhead, List.filterMap_cons]
      rcases hFc : F c with _ | r
      · exact ih hnd2 n
      · have hr1 : r.1 = c.1 := hF c r hFc
        have hskip : lookupChild (r :: cs.filterMap F) n = lookupChild (cs.filterMap F) n := by
          simp [lookupChild, List.find?_cons_of_neg, hr1, hc]
        rw [hskip]
        exact ih hnd2 n

/-- Under dry-run, pass 1 leaves the destination tree untouched. -/
theorem pass1_dry_id (dest : FSEntry) :
    wfFS dest = true → ∀ (srcOpt : Option FSEntry) (pre : RelPath),
      (pass1 true pre srcOpt dest).1 = dest := by
  induction dest using FSEntry.inductionOn with
  | hfile s i => intro _ srcOpt pre; rw [pass1]
  | hdir ch ih =>
    intro hw srcOpt pre
    obtain ⟨hnd, hwf⟩ := (wfFS_dir ch).mp hw
    rw [pass1]
    simp only [Bool.not_true, Bool.false_and, Bool.false_eq_true, if_false]
    refine congrArg FSEntry.dir (filterMap_self_of_mem ch _ ?_)
    intro c hc
    obtain ⟨cn, ce⟩ := c
    cases ce with
    | dir l =>
      simp only [FSEntry.isDirB, if_true]
      split
      next r hfind =>
        have hr1 := List.find?_some hfind
        have hrm := List.mem_of_find?_eq_some hfind
        obtain ⟨x, _, hxr⟩ := List.mem_map.mp hrm
        have hd1 : x.1 ∈ ch :=
          List.mem_of_mem_filter (walkRemoveIter_kept_mem _ _ _ x.2)
        have hname : x.1.1 = cn := by
          rw [← hxr] at hr1
          simpa using hr1
        have hde : x.1 = (cn, FSEntry.dir l) :=
          eq_of_name_eq ch hnd x.1 (cn, FSEntry.dir l) hd1 hc hname
        have hsub : r.2.1 = FSEntry.dir l := by
          rw [← hxr]
          show (pass1 true (pre ++ [x.1.1]) _ x.1.2).1 = _
          rw [ih x.1 hd1 (hwf x.1 hd1)]
          rw [hde]
        rw [hsub]
      next hfind => rfl
    | file s i =>
      simp only [FSEntry.isDirB, Bool.false_eq_true, if_false]
      split
      · simp
      · split
        · simp
        · simp

/-- Under dry-run, pass 2 leaves the destination untouched. -/
theorem pass2_dry_id (src : FSEntry) :
    ∀ (dest : Option FSEntry), (∀ e, dest = some e → wfFS e = true) → ∀ pre,
      (pass2 true pre src dest).1 = dest := by
  induction src using FSEntry.inductionOn with
  | hfile s i => intro dest _ pre; rw [pass2]
  | hdir sch ih =>
    intro dest hw pre
    by_cases hd : ∃ dc, dest = some (.dir dc)
    · obtain ⟨dc, rfl⟩ := hd
      have hwd := hw (.dir dc) rfl
      obtain ⟨hnd, hwf⟩ := (wfFS_dir dc).mp hwd
      rw [pass2.eq_2]
      simp only [if_pos rfl]
      show some (FSEntry.dir _) = some (FSEntry.dir dc)
      refine congrArg (fun l => some (FSEntry.dir l)) ?_
      conv_rhs => rw [← List.map_id dc]
      apply List.map_congr_left
      intro c hc
      obtain ⟨cn, ce⟩ := c
      cases ce with
      | file s i => simp [FSEntry.isDirB]
      | dir l =>
        simp only [FSEntry.isDirB, if_true, id]
        split
        next r hfind =>
          have hr1 := List.find?_some hfind
          have hrm := List.mem_of_find?_eq_some hfind
          obtain ⟨x, _, hxr⟩ := List.mem_map.mp hrm
          have hd1 : x.1 ∈ sch := List.mem_of_mem_filter x.2
          have hname : x.1.1 = cn := by
            rw [← hxr] at hr1
            simpa using hr1
          have hlook : lookupChild dc cn = some (FSEntry.dir l) :=
            (lookupChild_eq_some_iff dc hnd cn (FSEntry.dir l)).mpr hc
          have hsub : r.2.1 = some (FSEntry.dir l) := by
            rw [← hxr]
            show (pass2 true (pre ++ [x.1.1]) x.1.2 _).1 = _
            rw [hname]
            simp only [hlook]
            exact ih x.1 hd1 (some (FSEntry.dir l))
              (fun e he => by
                rw [← (Option.some.injEq _ _).mp he]
                exact hwf (cn, _) hc)
              (pre ++ [cn])
          rw [hsub]
          rfl
        next hfind => rfl
    · rw [pass2.eq_3 true pre dest sch fun sc h => hd ⟨sc, h⟩]

theorem pass1_metric_dry (dest : FSEntry) :
    ∀ (srcOpt : Option FSEntry) (pre : RelPath),
      (pass1 true pre srcOpt dest).2 = (pass1 false pre srcOpt dest).2 := by
  induction dest using FSEntry.inductionOn with
  | hfile s i => intro srcOpt pre; rw [pass1, pass1]
  | hdir ch ih =>
    intro srcOpt pre
    rw [pass1, pass1]
    refine Prod.ext ?_ ?_
    · show List.foldl _ _ _ = List.foldl _ _ _
      rw [List.foldl_map, List.foldl_map]
      apply foldl_congr_mem
      intro a x _
      have hmem : x.1 ∈ ch :=
        List.mem_of_mem_filter (walkRemoveIter_kept_mem _ _ _ x.2)
      exact congrArg a.app (congrArg Prod.fst (ih x.1 hmem _ _))
    · show List.foldl _ _ _ = List.foldl _ _ _
      rw [List.foldl_map, List.foldl_map]
      apply foldl_congr_mem
      intro a x _
      have hmem : x.1 ∈ ch :=
        List.mem_of_mem_filter (walkRemoveIter_kept_mem _ _ _ x.2)
      exact congrArg a.app (congrArg Prod.snd (ih x.1 hmem _ _))

theorem pass2_metric_none_emptydir (b : Bool) (pre : RelPath) (src : FSEntry) :
    (pass2 b pre src none).2 = (pass2 b pre src (some (.dir []))).2 := by
  cases src with
  | file s i => rw [pass2.eq_1, pass2.eq_1]
  | dir sch =>
    rw [pass2.eq_3 b pre none sch (fun sc h => by cases h), pass2.eq_2]
    simp [lookupChild]

theorem pass2_metric_nondir (b : Bool) (pre : RelPath) (src : FSEntry)
    (d : Option FSEntry) (hd : ∀ dc, d = some (.dir dc) → False) :
    (pass2 b pre src d).2 = (pass2 b pre src none).2 := by
  cases src with
  | file s i => rw [pass2.eq_1, pass2.eq_1]
  | dir sch =>
    rw [pass2.eq_3 b pre d sch hd, pass2.eq_3 b pre none sch (fun sc h => by cases h)]

theorem pass2_metric_dry (src : FSEntry) :
    ∀ (d : Option FSEntry) (pre : RelPath),
      (pass2 true pre src d).2 = (pass2 false pre src d).2 := by
  induction src using FSEntry.inductionOn with
  | hfile s i => intro d pre; rw [pass2.eq_1, pass2.eq_1]
  | hdir sch ih =>
    intro d pre
    by_cases hd : ∃ dc, d = some (.dir dc)
    · obtain ⟨dc, rfl⟩ := hd
      rw [pass2.eq_2, pass2.eq_2]
      show List.foldl _ _ _ = List.foldl _ _ _
      rw [List.foldl_map, List.foldl_map]
      apply foldl_congr_mem
      intro a x _
      have hmem : x.1 ∈ sch := List.mem_of_mem_filter x.2
      rcases hl : lookupChild dc x.1.1 with _ | e
      · simp only [hl]
        have h1 := ih x.1 hmem none (pre ++ [x.1.1])
        have h2 := pass2_metric_none_emptydir false (pre ++ [x.1.1]) x.1.2
        exact congrArg a.app (h1.trans h2)
      · simp only [hl]
        exact congrArg a.app (ih x.1 hmem (some e) (pre ++ [x.1.1]))
    · have hnd : ∀ dc, d = some (.dir dc) → False := fun dc h => hd ⟨dc, h⟩
      rw [pass2.eq_3 true pre d sch hnd, pass2.eq_3 false pre d sch hnd]
      show List.foldl _ _ _ = List.foldl _ _ _
      rw [List.foldl_map, List.foldl_map]
      apply foldl_congr_mem
      intro a x _
      have hmem : x.1 ∈ sch := List.mem_of_mem_filter x.2
      have h1 := ih x.1 hmem none (pre ++ [x.1.1])
      have h2 := pass2_metric_none_emptydir false (pre ++ [x.1.1]) x.1.2
      exact congrArg a.app (h1.trans h2)

theorem pass1_lookup_char (sch ch : List (String × FSEntry))
    (hndd : nodupNames (namesOf ch) = true) (pre2 : RelPath) :
    ∃ nc, (pass1 false pre2 (some (.dir sch)) (.dir ch)).1 = .dir nc ∧
      ∀ n e, lookupChild sch n = some e →
        ((lookupChild ch n = none → lookupChild nc n = none) ∧
         (∀ dc, lookupChild ch n = some (.dir dc) →
            lookupChild nc n = some ((pass1 false (pre2 ++ [n]) (some e) (.dir dc)).1)) ∧
         (∀ s i, lookupChild ch n = some (.file s i) →
            ∃ s2 i2, lookupChild nc n = some (.file s2 i2))) := by
  rw [pass1]
  refine ⟨_, rfl, ?_⟩
  intro n e hsrc
  rw [lookupChild_filterMap ch]
  · refine ⟨?_, ?_, ?_⟩
    · intro hch
      simp only [hch]
    · intro dc hch
      have hmemch : (n, FSEntry.dir dc) ∈ ch :=
        (lookupChild_eq_some_iff ch hndd n _).mp hch
      simp only [hch, FSEntry.isDirB, if_true, Bool.not_false, Bool.true_and]
      split
      next hcond =>
        exfalso
        obtain ⟨d, hd, hdn⟩ := List.any_eq_true.mp hcond
        have hp0 := walkRemoveIter_removed_prop _ _ d hd
        have hp2 : (lookupChild sch d.1).isNone = true := hp0
        have hdn2 : d.1 = n := by simpa using hdn
        rw [hdn2, hsrc] at hp2
        simp at hp2
      next hcond =>
        split
        next r hfind =>
          have hr1 := List.find?_some hfind
          have hrm := List.mem_of_find?_eq_some hfind
          obtain ⟨x, _, hxr⟩ := List.mem_map.mp hrm
          have hd1 : x.1 ∈ ch :=
            List.mem_of_mem_filter (walkRemoveIter_kept_mem _ _ _ x.2)
          have hname : x.1.1 = n := by
            rw [← hxr] at hr1
            simpa using hr1
          have hde : x.1 = (n, FSEntry.dir dc) :=
            eq_of_name_eq ch hndd x.1 (n, FSEntry.dir dc) hd1 hmemch hname
          have hsub : r.2.1 = (pass1 false (pre2 ++ [n]) (some e) (FSEntry.dir dc)).1 := by
            rw [← hxr]
            show (pass1 false (pre2 ++ [x.1.1]) (lookupChild sch x.1.1) x.1.2).1 = _
            rw [hde]
            show (pass1 false (pre2 ++ [n]) (lookupChild sch n) (FSEntry.dir dc)).1 = _
            rw [hsrc]
          rw [hsub]
          rfl
        next hfind =>
          exfalso
          have hdirE : (n, FSEntry.dir dc) ∈ List.filter (fun c => c.2.isDirB) ch :=
            List.mem_filter.mpr ⟨hmemch, rfl⟩
          rcases walkRemoveIter_partition
              (fun c => (lookupChild sch c.1).isNone)
              (List.filter (fun c => c.2.isDirB) ch)
              (n, FSEntry.dir dc) hdirE with hk | hr
          · have hmm := List.find?_eq_none.mp hfind
              ((n : String), pass1 false (pre2 ++ [n]) (lookupChild sch n) (FSEntry.dir dc))
              (List.mem_map.mpr ⟨⟨(n, FSEntry.dir dc), hk⟩, List.mem_attach _ _, rfl⟩)
            exact hmm (by simp)
          · have hp0 := walkRemoveIter_removed_prop _ _ _ hr
            have hp2 : (lookupChild sch n).isNone = true := hp0
            rw [hsrc] at hp2
            simp at hp2
    · intro s i hch
      simp only [hch, FSEntry.isDirB, Bool.false_eq_true, if_false, hsrc]
      split
      · exact ⟨entrySize e, entryInode e, rfl⟩
      · exact ⟨s, i, rfl⟩
  · intro c r h
    repeat' split at h
    all_goals try cases h
    all_goals rfl
  · exact hndd

theorem pass2_metric_look_congr (b : Bool) (pre : RelPath)
    (sch dc1 dc2 : List (String × FSEntry))
    (H : ∀ c ∈ sch, (lookupChild dc1 c.1).isNone = (lookupChild dc2 c.1).isNone)
    (H2 : ∀ c ∈ sch, c.2.isDirB = true → ∀ e1 e2,
      lookupChild dc1 c.1 = some e1 → lookupChild dc2 c.1 = some e2 →
      (pass2 b (pre ++ [c.1]) c.2 (some e1)).2 = (pass2 b (pre ++ [c.1]) c.2 (some e2)).2) :
    (pass2 b pre (.dir sch) (some (.dir dc1))).2 =
    (pass2 b pre (.dir sch) (some (.dir dc2))).2 := by
  rw [pass2.eq_2, pass2.eq_2]
  show List.foldl _ _ _ = List.foldl _ _ _
  have hD : List.filter (fun c => (lookupChild dc1 c.1).isNone)
      (List.filter (fun c => c.2.isDirB) sch) =
      List.filter (fun c => (lookupChild dc2 c.1).isNone)
      (List.filter (fun c => c.2.isDirB) sch) :=
    List.filter_congr fun c hc => H c (List.mem_of_mem_filter hc)
  have hFi : List.filter (fun c => (lookupChild dc1 c.1).isNone)
      (List.filter (fun c => c.2.isFileB) sch) =
      List.filter (fun c => (lookupChild dc2 c.1).isNone)
      (List.filter (fun c => c.2.isFileB) sch) :=
    List.filter_congr fun c hc => H c (List.mem_of_mem_filter hc)
  simp only [hD, hFi]
  rw [List.foldl_map, List.foldl_map]
  apply foldl_congr_mem
  intro a x hx
  have hmem : x.1 ∈ sch := List.mem_of_mem_filter x.2
  have hdirb : x.1.2.isDirB = true := (List.mem_filter.mp x.2).2
  rcases h1 : lookupChild dc1 x.1.1 with _ | e1 <;>
    rcases h2 : lookupChild dc2 x.1.1 with _ | e2
  · simp only [h1, h2]
  · exfalso
    have hh := H x.1 hmem
    rw [h1, h2] at hh
    simp at hh
  · exfalso
    have hh := H x.1 hmem
    rw [h1, h2] at hh
    simp at hh
  · simp only [h1, h2]
    exact congrArg a.app (H2 x.1 hmem hdirb e1 e2 h1 h2)

theorem pass2_metric_after_pass1 (src : FSEntry) :
    wfFS src = true → ∀ (dest : FSEntry), wfFS dest = true →
    ∀ (b : Bool) (pre pre2 : RelPath),
      (pass2 b pre src (some (pass1 false pre2 (some src) dest).1)).2 =
      (pass2 b pre src (some dest)).2 := by
  induction src using FSEntry.inductionOn with
  | hfile s i => intro _ dest _ b pre pre2; rw [pass2.eq_1, pass2.eq_1]
  | hdir sch ih =>
    intro hws dest hwd b pre pre2
    obtain ⟨hnds, hwfs⟩ := (wfFS_dir sch).mp hws
    cases dest with
    | file s i =>
      have h1 : (pass1 false pre2 (some (.dir sch)) (.file s i)).1 = .file s i := by
        rw [pass1]
      rw [h1]
    | dir ch =>
      obtain ⟨hndd, hwfd⟩ := (wfFS_dir ch).mp hwd
      obtain ⟨nc, hnc, hchar⟩ := pass1_lookup_char sch ch hndd pre2
      rw [hnc]
      apply pass2_metric_look_congr
      · intro c hc
        have hsrc : lookupChild sch c.1 = some c.2 :=
          (lookupChild_eq_some_iff sch hnds c.1 c.2).mpr hc
        obtain ⟨hnone, hdir, hfile⟩ := hchar c.1 c.2 hsrc
        rcases hch : lookupChild ch c.1 with _ | e2
        · simp [hnone hch, hch]
        · cases e2 with
          | dir dc => simp [hdir dc hch, hch]
          | file s i =>
            obtain ⟨s2, i2, hli⟩ := hfile s i hch
            simp [hli, hch]
      · intro c hc _hcdir e1 e2 h1 h2
        have hsrc : lookupChild sch c.1 = some c.2 :=
          (lookupChild_eq_some_iff sch hnds c.1 c.2).mpr hc
        obtain ⟨hnone, hdir, hfile⟩ := hchar c.1 c.2 hsrc
        cases e2 with
        | dir dc =>
          have hthis := hdir dc h2
          rw [h1] at hthis
          injection hthis with h3
          rw [h3]
          have hwfdc : wfFS (FSEntry.dir dc) = true :=
            hwfd (c.1, .dir dc) ((lookupChild_eq_some_iff ch hndd c.1 _).mp h2)
          exact ih c hc (hwfs c hc) (.dir dc) hwfdc b (pre ++ [c.1]) (pre2 ++ [c.1])
        | file s i =>
          obtain ⟨s2, i2, hli⟩ := hfile s i h2
          rw [h1] at hli
          injection hli with h3
          rw [h3]
          have hA := pass2_metric_nondir b (pre ++ [c.1]) c.2 (some (.file s2 i2))
            (by intro dc h; exact FSEntry.noConfusion (Option.some.inj h))
          have hB := pass2_metric_nondir b (pre ++ [c.1]) c.2 (some (.file s i))
            (by intro dc h; exact FSEntry.noConfusion (Option.some.inj h))
          exact hA.trans hB.symm

theorem syncLib_dry_id (lib : PlexLibrary) (hwd : wfFS lib.dest = true) :
    (syncLib true lib).1 = lib := by
  have h1 : (pass1 true [] (some lib.src) lib.dest).1 = lib.dest :=
    pass1_dry_id lib.dest hwd _ _
  have h2 : (pass2 true [] lib.src (some lib.dest)).1 = some lib.dest :=
    pass2_dry_id lib.src (some lib.dest)
      (fun e he => by rw [← Option.some.inj he]; exact hwd) []
  show (⟨lib.type, lib.src,
      ((pass2 true [] lib.src (some ((pass1 true [] (some lib.src) lib.dest).1))).1).getD
        ((pass1 true [] (some lib.src) lib.dest).1)⟩ : PlexLibrary) = lib
  rw [h1, h2]
  rfl

theorem syncLib_metric_dry (lib : PlexLibrary) (hws : wfFS lib.src = true)
    (hwd : wfFS lib.dest = true) :
    (syncLib true lib).2 = (syncLib false lib).2 := by
  have h1 : (pass1 true [] (some lib.src) lib.dest).1 = lib.dest :=
    pass1_dry_id lib.dest hwd _ _
  show (⟨(pass2 true [] lib.src (some ((pass1 true [] (some lib.src) lib.dest).1))).2,
        (pass1 true [] (some lib.src) lib.dest).2.1,
        (pass1 true [] (some lib.src) lib.dest).2.2⟩ : LibMetrics) =
      ⟨(pass2 false [] lib.src (some ((pass1 false [] (some lib.src) lib.dest).1))).2,
        (pass1 false [] (some lib.src) lib.dest).2.1,
        (pass1 false [] (some lib.src) lib.dest).2.2⟩
  rw [h1, pass1_metric_dry, pass2_metric_dry,
    ← pass2_metric_after_pass1 lib.src hws lib.dest hwd false [] []]

theorem sync_fold_trees (dry : Bool) (libs : List PlexLibrary) :
    ∀ acc, (List.foldl (fun acc lib =>
        (acc.1 ++ [(syncLib dry lib).1],
          mergeMetrics acc.2 lib.type (syncLib dry lib).2)) acc libs).1
      = acc.1 ++ libs.map fun lib => (syncLib dry lib).1 := by
  induction libs with
  | nil => intro acc; simp
  | cons lib rest ih =>
    intro acc
    rw [List.foldl_cons, ih, List.map_cons]
    simp

theorem sync_fold_metric_dry (libs : List PlexLibrary) :
    (∀ lib ∈ libs, wfFS lib.src = true ∧ wfFS lib.dest = true) →
    ∀ (m : List (String × LibMetrics)) (a1 a2 : List PlexLibrary),
      (List.foldl (fun acc lib =>
        (acc.1 ++ [(syncLib true lib).1],
          mergeMetrics acc.2 lib.type (syncLib true lib).2)) (a1, m) libs).2 =
      (List.foldl (fun acc lib =>
        (acc.1 ++ [(syncLib false lib).1],
          mergeMetrics acc.2 lib.type (syncLib false lib).2)) (a2, m) libs).2 := by
  induction libs with
  | nil => intro _ m a1 a2; rfl
  | cons lib rest ih =>
    intro hwf m a1 a2
    rw [List.foldl_cons, List.foldl_cons]
    have hm := syncLib_metric_dry lib (hwf lib (List.mem_cons_self _ _)).1
      (hwf lib (List.mem_cons_self _ _)).2
    rw [hm]
    exact ih (fun l hl => hwf l (List.mem_cons_of_mem _ hl)) _ _ _

theorem analyzeEvents_dry (cfg : Config) (items : List (Nat × MediaItem))
    (hdry : cfg.dryRun = true) : analyzeEvents cfg items = [] := by
  unfold analyzeEvents
  rw [hdry]
  rfl

theorem refreshLibrariesEvents_dry (cfg : Config) (hdry : cfg.dryRun = true) :
    refreshLibrariesEvents cfg = [] := by
  unfold refreshLibrariesEvents
  rw [hdry]
  split <;> rfl

theorem analyzeLibraries_dry_shape (env : PlexEnv) (cfg : Config)
    (cache : List CacheRecord) (cps : List (String × List String))
    (hdry : cfg.dryRun = true) :
    ∀ ev ∈ (analyzeLibraries env cfg cache cps).events,
      ev = REvent.rebuildCache ∨ ∃ k, ev = REvent.fetchItem k := by
  intro ev hev
  unfold analyzeLibraries at hev
  split at hev
  · simp at hev
  · split at hev
    · simp at hev
    · simp only [] at hev
      split at hev
      · rw [analyzeEvents_dry cfg _ hdry] at hev
        simp only [List.append_nil, List.mem_append, List.mem_map,
          List.mem_singleton] at hev
        rcases hev with (⟨k, _, hk⟩ | h) | ⟨k, _, hk⟩
        · exact Or.inr ⟨k, hk.symm⟩
        · exact Or.inl h
        · exact Or.inr ⟨k, hk.symm⟩
      · rw [analyzeEvents_dry cfg _ hdry] at hev
        simp only [List.append_nil, List.mem_map] at hev
        obtain ⟨k, _, hk⟩ := hev
        exact Or.inr ⟨k, hk.symm⟩

theorem updateServer_dry_shape (env : PlexEnv) (cfg : Config)
    (cache : List CacheRecord) (metrics : Option (List (String × LibMetrics)))
    (hdry : cfg.dryRun = true) :
    ∀ ev ∈ (updateServer env cfg cache metrics).events,
      ev = REvent.rebuildCache ∨ ∃ k, ev = REvent.fetchItem k := by
  intro ev hev
  unfold updateServer at hev
  split at hev
  · simp at hev
  · split at hev
    · simp at hev
    · rw [refreshLibrariesEvents_dry cfg hdry] at hev
      simp only [List.mem_append] at hev
      rcases hev with h | h
      · split at h
        · exact analyzeLibraries_dry_shape env cfg cache _ hdry ev h
        · simp at h
      · split at h <;> simp at h

theorem runModel_dry_shape (env : PlexEnv) (cfg : Config)
    (hdry : cfg.dryRun = true) :
    ∀ ev ∈ (runModel env cfg).1,
      ev = REvent.listSections ∨ ev = REvent.rebuildCache ∨
        ∃ k, ev = REvent.fetchItem k := by
  intro ev hev
  unfold runModel at hev
  simp only [List.mem_append, List.mem_singleton] at hev
  rcases hev with (h | h) | h
  · exact Or.inl h
  · split at h
    · simp at h
      exact Or.inr (Or.inl h)
    · simp at h
  · exact Or.inr (updateServer_dry_shape env cfg _ _ hdry ev h)

/-- C8: when dry-run is set, every destination filesystem mutation is
suppressed — the destination trees come out of `sync` untouched — while the
metrics equal exactly those a non-dry run would report, and no remote
refresh or analyze call is ever issued.  (The cache rebuild and the
verification fetches are NOT suppressed: see `dry_run_still_rebuilds_cache`.) -/
theorem dry_run_faithful_preview (env : PlexEnv) (cfg : Config)
    (hdry : cfg.dryRun = true)
    (hwf : ∀ lib ∈ cfg.plexLibs, wfFS lib.src = true ∧ wfFS lib.dest = true) :
    (∀ r, sync true cfg.plexLibs = some r → r.1 = cfg.plexLibs) ∧
    ((sync true cfg.plexLibs).map (fun r => r.2) =
      (sync false cfg.plexLibs).map (fun r => r.2)) ∧
    REvent.refreshLibrary ∉ (runModel env cfg).1 ∧
    (∀ k, REvent.analyzeItem k ∉ (runModel env cfg).1) := by
  refine ⟨?_, ?_, ?_, ?_⟩
  · intro r hr
    cases hl : cfg.plexLibs with
    | nil => rw [hl] at hr; simp [sync] at hr
    | cons lib rest =>
      rw [hl] at hr
      simp only [sync] at hr
      obtain rfl := Option.some.inj hr
      have h1 := sync_fold_trees true (lib :: rest) ([], [])
      rw [List.nil_append] at h1
      have h2 : ∀ l ∈ lib :: rest, (syncLib true l).1 = l := by
        intro l hlm
        exact syncLib_dry_id l (hwf l (by rw [hl]; exact hlm)).2
      have h3 : (lib :: rest).map (fun l => (syncLib true l).1) = lib :: rest := by
        rw [List.map_congr_left h2]
        exact List.map_id _
      exact h1.trans h3
  · cases hl : cfg.plexLibs with
    | nil => rfl
    | cons lib rest =>
      simp only [sync, Option.map_some']
      refine congrArg some ?_
      exact sync_fold_metric_dry (lib :: rest)
        (fun l hlm => hwf l (by rw [hl]; exact hlm)) [] [] []
  · intro hmem
    rcases runModel_dry_shape env cfg hdry _ hmem with h | h | ⟨k, h⟩ <;> cases h
  · intro k hmem
    rcases runModel_dry_shape env cfg hdry _ hmem with h | h | ⟨k2, h⟩ <;> cases h

/-- Witness for C8 at a concrete configuration: one movie mapping with a
well-formed source and an empty destination, dry-run on. -/
theorem dry_run_faithful_preview_witness :
    REvent.refreshLibrary ∉
      (runModel ⟨[], fun _ => none, []⟩
        ⟨true, false, false, false,
          [⟨"movie", FSEntry.dir [("A.mkv", FSEntry.file 5 1)], FSEntry.dir []⟩]⟩).1 :=
  (dry_run_faithful_preview ⟨[], fun _ => none, []⟩
    ⟨true, false, false, false,
      [⟨"movie", FSEntry.dir [("A.mkv", FSEntry.file 5 1)], FSEntry.dir []⟩]⟩
    rfl
    (by
      intro lib hl
      simp only [List.mem_singleton] at hl
      subst hl
      refine ⟨?_, ?_⟩
      · show wfFS (FSEntry.dir [("A.mkv", FSEntry.file 5 1)]) = true
        rw [wfFS_dir]
        refine ⟨rfl, ?_⟩
        intro c hc
        simp at hc
        rw [hc]
        simp [wfFS]
      · show wfFS (FSEntry.dir []) = true
        rw [wfFS_dir]
        exact ⟨rfl, fun c hc => by simp at hc⟩)).2.2.1
